import Mathlib

/-!
Verification of the toksmith BPE tokenizer trainer.

This file gives a shallow embedding, in Lean 4, of the core of the
`toksmith` repository (a GPT-2 style byte-pair-encoding tokenizer
trainer written in Python) and proves or refutes the frozen claims
about it.

Embedding conventions:
* Python `dict` / `collections.Counter` values are embedded as
  association lists `List (κ × ν)` with unique keys, preserving
  insertion order (Python dicts iterate in insertion order).
  `Counter` lookups default to `0`; plain-`dict` indexing of a missing
  key is a `KeyError`, embedded as `Except.error`.
* Python `set` values are embedded as duplicate-free `List` values in
  insertion order.
* Byte strings are `List Nat` (each element a byte value), text is
  `List Char`, pretokens are `List Nat` (token ids), pairs are
  `Nat × Nat`.
* Fallible code returns `Except String α`; `assert` failures,
  `KeyError` and `TypeError` all map to `Except.error` with a
  describing message.
* `heapq` is embedded as a list of entries together with a
  pop-minimum operation; this reflects the priority-queue contract
  (pop returns a minimal element) without modelling the array layout.
* `while` loops over file input are embedded with an explicit fuel
  argument that is always sufficient for the actual input.
-/

namespace Toksmith

/-! ## Association list and set primitives -/

/-- Lookup in an association list, returning `none` when absent. -/
def lookupK {κ ν : Type} [DecidableEq κ] : List (κ × ν) → κ → Option ν
  | [], _ => none
  | (k, v) :: rest, key => if k = key then some v else lookupK rest key

/-- Lookup with a default value (models `Counter.__getitem__` /
`dict.get(k, d)`). -/
def lookupD {κ ν : Type} [DecidableEq κ] (m : List (κ × ν)) (key : κ) (d : ν) : ν :=
  (lookupK m key).getD d

/-- Whether a key is present (models `k in d`). -/
def containsK {κ ν : Type} [DecidableEq κ] (m : List (κ × ν)) (key : κ) : Bool :=
  (lookupK m key).isSome

/-- Set a key to a value: updates in place when present (keeping the
dict's insertion order), appends when absent — exactly Python
`d[k] = v`. -/
def setK {κ ν : Type} [DecidableEq κ] : List (κ × ν) → κ → ν → List (κ × ν)
  | [], key, v => [(key, v)]
  | (k, w) :: rest, key, v =>
      if k = key then (key, v) :: rest else (k, w) :: setK rest key v

/-- Delete a key if present (models `del d[k]` after a presence check,
and `d.pop(k, None)`). -/
def delK {κ ν : Type} [DecidableEq κ] : List (κ × ν) → κ → List (κ × ν)
  | [], _ => []
  | (k, w) :: rest, key =>
      if k = key then rest else (k, w) :: delK rest key

/-- Set insertion (models `s.add(x)`): no duplicates, insertion order. -/
def addS {α : Type} [DecidableEq α] (s : List α) (x : α) : List α :=
  if x ∈ s then s else s ++ [x]

/-- Set removal (models `s.discard(x)`): removes the element when
present, no-op otherwise. -/
def discardS {α : Type} [DecidableEq α] (s : List α) (x : α) : List α :=
  s.erase x

/-! ## Shared helper types -/

/-- A pretoken: a sequence of token ids. -/
abbrev Pretoken := List Nat

/-- An adjacent pair of token ids. -/
abbrev Pair := Nat × Nat

/-- `pretoken_count`: pretoken → frequency. -/
abbrev PretokenCnt := List (Pretoken × Nat)

/-- `pair_count`: pair → count. -/
abbrev PairCnt := List (Pair × Nat)

/-- A set of pretokens. -/
abbrev PretokenSet := List Pretoken

/-- `pair_to_pretoken_set`: pair → set of pretokens containing it. -/
abbrev PairToPretokens := List (Pair × PretokenSet)

/-- The adjacent pairs of a sequence: `zip(pretoken, pretoken[1:])`. -/
def adjPairs (l : List Nat) : List Pair :=
  l.zip l.tail

/-! ## `tokenizer._merge`

Source: `src/toksmith/tokenizer.py`, function `_merge(seq, pair, new_ix)`.
The Python scans with an index `i`; on a match of `pair` at `(i, i+1)`
it appends `new_ix` and advances by 2, otherwise it copies `seq[i]` and
advances by 1.  The embedding recurses on the remaining suffix. -/
def merge (pair : Pair) (newIx : Nat) : List Nat → List Nat
  | [] => []
  | [a] => [a]
  | a :: b :: rest =>
      if (a, b) = pair then newIx :: merge pair newIx rest
      else a :: merge pair newIx (b :: rest)

/-! ## `tokenizer._pairs_count`

Source: `src/toksmith/tokenizer.py`, function `_pairs_count(pretokens)`:
`pair_counts[p] = pair_counts.get(p, 0) + cnt` over all adjacent pairs
of all pretokens. -/
def pairsCount (pretokens : PretokenCnt) : PairCnt :=
  pretokens.foldl
    (fun pc e =>
      (adjPairs e.1).foldl (fun pc p => setK pc p (lookupD pc p 0 + e.2)) pc)
    []

/-! ## `merger._process_pretoken` and `merger._build_pair_index`

Source: `src/toksmith/merger.py`.  For each adjacent pair of the
pretoken: `pair_count[pair] += freq` (Counter: default 0), and the
pretoken is added to `pair_to_pretoken[pair]` (creating a singleton
set when the pair is new). -/
/-- `pair_count[pair] += freq` on a `Counter`. -/
def bumpPair (freq : Nat) (pc : PairCnt) (pair : Pair) : PairCnt :=
  setK pc pair (lookupD pc pair 0 + freq)

/-- `pair_to_pretoken[pair].add(pretoken)` when the pair is present,
`pair_to_pretoken[pair] = {pretoken}` otherwise. -/
def ptpsInsert (pretoken : Pretoken) (ptps : PairToPretokens) (pair : Pair) :
    PairToPretokens :=
  match lookupK ptps pair with
  | some s => setK ptps pair (addS s pretoken)
  | none => ptps ++ [(pair, [pretoken])]

def processPretoken (pretoken : Pretoken) (freq : Nat)
    (st : PairCnt × PairToPretokens) : PairCnt × PairToPretokens :=
  (adjPairs pretoken).foldl
    (fun st pair => (bumpPair freq st.1 pair, ptpsInsert pretoken st.2 pair))
    st

/-- `_build_pair_index(pretoken_count)`: folds `_process_pretoken` over
all entries of the pretoken counter, starting from empty maps. -/
def buildPairIndex (pretokenCount : PretokenCnt) : PairCnt × PairToPretokens :=
  pretokenCount.foldl (fun st e => processPretoken e.1 e.2 st) ([], [])

/-! ## `merger.HeapEntry` and the pair heap

Source: `src/toksmith/merger.py`, class `HeapEntry`.  An entry stores
`sort_index = -count` and `reverse_pair = (-pair[0], -pair[1])`; the
dataclass ordering compares `(sort_index, reverse_pair)`
lexicographically, `original_pair` is not compared.  We embed an entry
as `(count, pair)` and compare through the same negated key, so the
minimum entry of the heap is the one with maximal `(count, pair)` in
lexicographic order. -/
abbrev HeapEntry := Nat × Pair

/-- The comparison key of a heap entry: `(sort_index, reverse_pair)`. -/
def entryKey (e : HeapEntry) : Int × Int × Int :=
  (-(e.1 : Int), -(e.2.1 : Int), -(e.2.2 : Int))

/-- `HeapEntry` dataclass ordering: lexicographic `≤` on `entryKey`
(the dataclass compares the tuple `(sort_index, reverse_pair)`). -/
def entryLe (e f : HeapEntry) : Prop :=
  (entryKey e).1 < (entryKey f).1 ∨
    ((entryKey e).1 = (entryKey f).1 ∧
      ((entryKey e).2.1 < (entryKey f).2.1 ∨
        ((entryKey e).2.1 = (entryKey f).2.1 ∧ (entryKey e).2.2 ≤ (entryKey f).2.2)))

instance (e f : HeapEntry) : Decidable (entryLe e f) := by
  unfold entryLe; exact inferInstance

/-- Remove a minimal entry from a non-empty heap (the priority-queue
contract of `heapq.heappop`).  Returns the minimal entry and the
remaining entries.  Entries that compare equal are identical, since
`original_pair` is determined by `reverse_pair`. -/
def popMinFrom (e : HeapEntry) : List HeapEntry → HeapEntry × List HeapEntry
  | [] => (e, [])
  | f :: rest =>
      if entryLe e f then
        ((popMinFrom e rest).1, f :: (popMinFrom e rest).2)
      else
        ((popMinFrom f rest).1, e :: (popMinFrom f rest).2)

/-! ## `merger.FastMerger` state -/

/-- The four coupled data structures owned by `FastMerger`. -/
structure FastMerger where
  pretokenCount : PretokenCnt
  pairCount : PairCnt
  pairHeap : List HeapEntry
  pairToPretokenSet : PairToPretokens
  deriving Repr, DecidableEq

/-- `FastMerger.__init__`: takes ownership of `pretoken_count`, builds
the pair index and one heap entry per pair-count key. -/
def FastMerger.init (pretokenCount : PretokenCnt) : FastMerger :=
  let (pc, ptps) := buildPairIndex pretokenCount
  { pretokenCount := pretokenCount
    pairCount := pc
    pairHeap := pc.map (fun e => (e.2, e.1))
    pairToPretokenSet := ptps }

/-- `FastMerger._most_common_pair`, with explicit fuel (the Python
`while True` loop pops at least one entry per round, so `heap.length`
rounds always suffice; an exhausted heap raises in Python and is
`none` here).  Pops entries until one is fresh, i.e. its stored count
equals the Counter value `pair_count[pair]` (default 0). -/
def mostCommonPairGo (pc : PairCnt) : Nat → List HeapEntry →
    Option (Pair × Nat × List HeapEntry)
  | _, [] => none
  | 0, _ :: _ => none
  | fuel + 1, e :: rest =>
      if lookupD pc (popMinFrom e rest).1.2 0 = (popMinFrom e rest).1.1 then
        some ((popMinFrom e rest).1.2, (popMinFrom e rest).1.1, (popMinFrom e rest).2)
      else mostCommonPairGo pc fuel (popMinFrom e rest).2

/-- `FastMerger._most_common_pair` (destructive for the heap): returns
the fresh pair, its count, and the heap after the pops. -/
def FastMerger.mostCommonPair (st : FastMerger) : Option (Pair × Nat × List HeapEntry) :=
  mostCommonPairGo st.pairCount st.pairHeap.length st.pairHeap

/-- `FastMerger._update_pair(pair, freq)`: no-op on `freq = 0`; with
`cnt = pair_count[pair] + freq`, either stores the new positive count
and pushes a heap entry, or deletes the pair from `pair_count` and
`pair_to_pretoken_set` (leaving stale heap entries behind). -/
def FastMerger.updatePair (st : FastMerger) (pair : Pair) (freq : Int) : FastMerger :=
  if freq = 0 then st
  else
    let base : Nat := lookupD st.pairCount pair 0
    let cnt : Int := (base : Int) + freq
    if 0 < cnt then
      { st with
        pairCount := setK st.pairCount pair cnt.toNat
        pairHeap := st.pairHeap ++ [(cnt.toNat, pair)] }
    else
      { st with
        pairCount := delK st.pairCount pair
        pairToPretokenSet := delK st.pairToPretokenSet pair }

/-- The body of the neighbor-decrement blocks of
`FastMerger._merge_sequence`: `self._update_pair(pair, -seq_freq)`
followed by `s = self.pair_to_pretoken_set[pair]` — a plain dict
index, which raises `KeyError` when `_update_pair` has just deleted
the key — then `s.discard(old_seq)`. -/
def FastMerger.decOutgoing (st : FastMerger) (pair : Pair) (seqFreq : Nat)
    (oldSeq : Pretoken) : Except String FastMerger := do
  let st := st.updatePair pair (-(seqFreq : Int))
  match lookupK st.pairToPretokenSet pair with
  | none => .error "KeyError: pair_to_pretoken_set"
  | some s =>
      .ok { st with pairToPretokenSet := setK st.pairToPretokenSet pair (discardS s oldSeq) }

/-- The scanning loop of `FastMerger._merge_sequence`.  `builderRev`
is `new_builder` in reverse (so `new_builder[-1]` is its head);
`remaining` is `old_seq[i:]`, hence the left neighbor `u` is
`builderRev.head?` and the right neighbor `v` is the head of the rest
beyond the matched pair. -/
def FastMerger.mergeSeqLoop (topPair : Pair) (newIx : Nat) (oldSeq : Pretoken)
    (seqFreq : Nat) :
    List Nat → List Nat → FastMerger → Except String (List Nat × FastMerger)
  | [], builderRev, st => .ok (builderRev, st)
  | [a], builderRev, st => .ok (a :: builderRev, st)
  | a :: b :: rest, builderRev, st =>
      if (a, b) = topPair then do
        let u := builderRev.head?
        let v := rest.head?
        -- decrement counts of outgoing neighbor pairs
        let st ← match u with
          | some u => st.decOutgoing (u, topPair.1) seqFreq oldSeq
          | none => .ok st
        let st ← match v with
          | some v => st.decOutgoing (topPair.2, v) seqFreq oldSeq
          | none => .ok st
        -- increment counts for incoming pairs
        let st := match u with
          | some u => st.updatePair (u, newIx) (seqFreq : Int)
          | none => st
        let st := match v with
          | some v => st.updatePair (newIx, v) (seqFreq : Int)
          | none => st
        mergeSeqLoop topPair newIx oldSeq seqFreq rest (newIx :: builderRev) st
      else
        mergeSeqLoop topPair newIx oldSeq seqFreq (b :: rest) (a :: builderRev) st

/-- `FastMerger._merge_sequence(old_seq, seq_freq, top_pair, new_ix)`.
Asserts `seq_freq > 0`, runs the scan, then replaces `old_seq` by the
new sequence in `pretoken_count` (`del` on a missing key is a
`KeyError`), and finally adds the new sequence to — and discards the
old one from — `pair_to_pretoken_set[q]` for every adjacent pair `q`
of the new sequence (`setdefault(pair, set())`). -/
def FastMerger.mergeSequence (st : FastMerger) (oldSeq : Pretoken) (seqFreq : Nat)
    (topPair : Pair) (newIx : Nat) : Except String FastMerger := do
  if seqFreq = 0 then
    .error "AssertionError: Stale entry came from pair_to_pretoken_set, not allowed!"
  else do
    let (builderRev, st) ← FastMerger.mergeSeqLoop topPair newIx oldSeq seqFreq oldSeq [] st
    let newSeq := builderRev.reverse
    let st ←
      if containsK st.pretokenCount oldSeq then
        .ok { st with pretokenCount := delK st.pretokenCount oldSeq }
      else
        (.error "KeyError: pretoken_count" : Except String FastMerger)
    let st := { st with pretokenCount := setK st.pretokenCount newSeq seqFreq }
    let st := (adjPairs newSeq).foldl
      (fun st pair =>
        let s := lookupD st.pairToPretokenSet pair []
        { st with
          pairToPretokenSet :=
            setK st.pairToPretokenSet pair (discardS (addS s newSeq) oldSeq) })
      st
    .ok st

/-- Modelled from the spec: `FastMerger.step(new_id)` is not present in
`src/toksmith/merger.py` (only its callers in `tokenizer.py` and its
collaborators are in the source), so it is modelled from spec §4.4:
1. if `PairCount` is empty, return none; 2. select `(top_pair, _)` via
`most_common_pair`; 3. iterate a snapshot of
`PairToPretokens[top_pair]`, invoking `merge_sequence(old_seq, f,
top_pair, new_id)` with `f = PretokenCount[old_seq]` for each;
4. return `top_pair`. -/
def FastMerger.step (st : FastMerger) (newId : Nat) :
    Except String (Option Pair × FastMerger) := do
  if st.pairCount = [] then
    .ok (none, st)
  else
    match st.mostCommonPair with
    | none => .error "IndexError: pop from an empty heap"
    | some (topPair, _, heap) => do
        let st := { st with pairHeap := heap }
        let snapshot := lookupD st.pairToPretokenSet topPair []
        let st ← snapshot.foldlM
          (fun st oldSeq =>
            st.mergeSequence oldSeq (lookupD st.pretokenCount oldSeq 0) topPair newId)
          st
        .ok (some topPair, st)

/-! ## `tokenizer.BasicMerger`

Source: `src/toksmith/tokenizer.py`, class `BasicMerger`.  Its state
is just `pretoken_count`. -/

/-- The sort key of `max(pair_counts.items(), key=lambda it: [it[1], it[0]])`:
Python compares the lists `[count, pair]` lexicographically, and the
pairs inside again lexicographically. -/
def basicKeyLt (x y : Pair × Nat) : Prop :=
  x.2 < y.2 ∨
    (x.2 = y.2 ∧ (x.1.1 < y.1.1 ∨ (x.1.1 = y.1.1 ∧ x.1.2 < y.1.2)))

instance (x y : Pair × Nat) : Decidable (basicKeyLt x y) := by
  unfold basicKeyLt; exact inferInstance

/-- The `max(...)` call of `BasicMerger.step`: scans the items in
order keeping the current best, replacing it only when an item's key
compares strictly greater. -/
def basicTopPair : List (Pair × Nat) → Option (Pair × Nat)
  | [] => none
  | e :: rest => some (rest.foldl (fun best it => if basicKeyLt best it then it else best) e)

/-- `BasicMerger.step(ix)`: recount all pairs; `None` when no pairs
remain; otherwise pick the top pair, rewrite every pretoken by
`_merge`, asserting against key collisions, and return the top pair.
The iteration is over `list(self.pretoken_count)` — a static snapshot
of the keys. -/
def basicStep (pretokenCount : PretokenCnt) (ix : Nat) :
    Except String (Option Pair × PretokenCnt) := do
  let pairCounts := pairsCount pretokenCount
  if pairCounts = [] then
    .ok (none, pretokenCount)
  else
    match basicTopPair pairCounts with
    | none => .ok (none, pretokenCount)
    | some (topPair, _) => do
        let keys := pretokenCount.map (fun e => e.1)
        let pretokenCount ← keys.foldlM
          (fun (ptc : PretokenCnt) pt => do
            let newPt := merge topPair ix pt
            if newPt ≠ pt then
              if containsK ptc newPt then
                .error "AssertionError: Collision: new_pt already in pretokens"
              else
                match lookupK ptc pt with
                | some cnt => .ok (setK (delK ptc pt) newPt cnt)
                | none => .error "KeyError: pretoken_count.pop"
            else
              .ok ptc)
          pretokenCount
        .ok (some topPair, pretokenCount)

/-! ## The merge loop of `Tokenizer.train`

Source: `src/toksmith/tokenizer.py`, `Tokenizer.train` (the
`for _ in range(num_iters)` loop; `train_from_file` has the identical
loop).  Note the loop body: when `merger.step(ix)` returns `None` it
only logs — there is no `break` — then unconditionally executes
`self.merges.append(top_pair)` and
`self.vocab[ix] = self.vocab[top_pair[0]] + self.vocab[top_pair[1]]`,
which on `top_pair = None` raises
`TypeError: NoneType object is not subscriptable`. -/

/-- `Vocab`: token id → byte string. -/
abbrev Vocab := List (Nat × List Nat)

/-- `_reset_state`'s vocabulary: `{i: int.to_bytes(i) for i in range(256)}`. -/
def initVocab : Vocab :=
  (List.range 256).map (fun i => (i, [i]))

/-- The training merge loop with the `BasicMerger` engine (the engine
used by `train` by default).  Returns the final `merges`, `vocab` and
pretoken counter, or the raised error. -/
def trainLoopBasic : Nat → Nat → PretokenCnt → List (Option Pair) → Vocab →
    Except String (List (Option Pair) × Vocab × PretokenCnt)
  | 0, _, ptc, merges, vocab => .ok (merges, vocab, ptc)
  | numIters + 1, ix, ptc, merges, vocab => do
      let (topPair, ptc) ← basicStep ptc ix
      -- `if top_pair is None:` — only a debug log, no early exit
      let merges := merges ++ [topPair]
      match topPair with
      | none => .error "TypeError: NoneType object is not subscriptable"
      | some (a, b) => do
          let va ← match lookupK vocab a with
            | some v => .ok v
            | none => (.error "KeyError: vocab" : Except String (List Nat))
          let vb ← match lookupK vocab b with
            | some v => .ok v
            | none => (.error "KeyError: vocab" : Except String (List Nat))
          trainLoopBasic numIters (ix + 1) ptc merges (setK vocab ix (va ++ vb))

/-! ## Merge-engine selection in `Tokenizer.train`

Source: `src/toksmith/tokenizer.py`, `Tokenizer.train` signature
`use_fast_merge: bool = False` and body
`Merger = BasicMerger; if use_fast_merge: Merger = FastMerger`. -/

/-- The two merge engines a training run can use. -/
inductive MergerKind where
  | basic
  | fast
  deriving Repr, DecidableEq

/-- The declared default of the `use_fast_merge` parameter of
`Tokenizer.train`. -/
def trainUseFastMergeDefault : Bool := false

/-- Which engine `Tokenizer.train` instantiates for a given
`use_fast_merge` argument. -/
def trainMergerChoice (useFastMerge : Bool) : MergerKind :=
  if useFastMerge then MergerKind.fast else MergerKind.basic

/-! ## `pretokenizer` counting

Source: `src/toksmith/pretokenizer.py`.  Text is a sequence of
Unicode code points (`List Nat`).  The GPT-2 split regex `TOKEN_RE`
belongs to the external `regex` library; its behaviour is a parameter
`tok : List Nat → List (List Nat)` giving, for a text, the ordered
list of matched substrings (`TOKEN_RE.finditer`). -/

/-- `c[m.group()] += 1` on a `Counter`. -/
def bumpTok (c : List (List Nat × Nat)) (t : List Nat) : List (List Nat × Nat) :=
  setK c t (lookupD c t 0 + 1)

/-- `count_tokens(text)`: the counter of the regex matches in `text`. -/
def countTokens (tok : List Nat → List (List Nat)) (text : List Nat) :
    List (List Nat × Nat) :=
  (tok text).foldl bumpTok []

/-- UTF-8 encoding of one code point (`str.encode("utf-8")`,
byte-level). -/
def utf8Char (c : Nat) : List Nat :=
  if c < 128 then [c]
  else if c < 2048 then [192 + c / 64, 128 + c % 64]
  else if c < 65536 then [224 + c / 4096, 128 + c / 64 % 64, 128 + c % 64]
  else [240 + c / 262144, 128 + c / 4096 % 64, 128 + c / 64 % 64, 128 + c % 64]

/-- UTF-8 encoding of a string of code points. -/
def utf8Str (s : List Nat) : List Nat :=
  (s.map utf8Char).join

/-- The final comprehension of both counters:
`{tuple(tok.encode("utf-8")): cnt for tok, cnt in c.items()}`. -/
def encodeKeys (c : List (List Nat × Nat)) : List (List Nat × Nat) :=
  c.map (fun e => (utf8Str e.1, e.2))

/-- `count_tokens_single(text)`: single-process pre-tokenization,
returning the byte-sequence-keyed counter. -/
def countTokensSingle (tok : List Nat → List (List Nat)) (text : List Nat) :
    List (List Nat × Nat) :=
  encodeKeys (countTokens tok text)

/-- `total.update(chunk)`: add the chunk counter into the total. -/
def counterUpdate (total chunk : List (List Nat × Nat)) : List (List Nat × Nat) :=
  chunk.foldl (fun tot e => setK tot e.1 (lookupD tot e.1 0 + e.2)) total

/-- `count_tokens_multi(text_iter, n_proc, n_chunks)`: workers apply
`count_tokens` per segment; the reducer sums the string-keyed
counters (`total.update`) in arrival order and UTF-8-encodes the keys
once at the end.  `n_proc` and `n_chunks` only affect scheduling, not
the reduced counter. -/
def countTokensMulti (tok : List Nat → List (List Nat)) (segments : List (List Nat))
    (nProc nChunks : Nat) : List (List Nat × Nat) :=
  encodeKeys
    (segments.foldl (fun total seg => counterUpdate total (countTokens tok seg)) [])

/-! ## `Tokenizer.save_state` / `Tokenizer.load_state`

Source: `src/toksmith/tokenizer.py`.  The JSON codec (`json.dump` /
`json.load`) and the file system are external collaborators: a JSON
value round-trips unchanged (tuples are serialized as arrays, which is
why `save_state` stores each merge as a 2-element array and
`load_state` rebuilds tuples), and the file system is a store mapping
file names to the persisted documents; the atomic temp-file/rename
dance of `save_state` has the net effect of binding the target name to
the document.  Strings are sequences of code points (`List Nat`). -/

/-- The shape of `<prefix>_tokenizer.json`: `version`, `merges` as
2-element arrays, `vocab` as decimal-id-string → lowercase-hex-string
entries (in insertion order). -/
structure SavedState where
  version : Nat
  merges : List (List Nat)
  vocab : List (List Nat × List Nat)
  deriving Repr, DecidableEq

/-- The file system: file name → persisted document. -/
abbrev FileStore := List (List Nat × SavedState)

/-- One lowercase hex digit (code point), as produced by
`bytes.hex()`. -/
def hexDigit (n : Nat) : Nat :=
  if n < 10 then 48 + n else 87 + n

/-- `bytes.hex()` of one byte: two lowercase hex digits. -/
def byteToHex (b : Nat) : List Nat :=
  [hexDigit (b / 16), hexDigit (b % 16)]

/-- `bytes.hex()` of a byte string. -/
def bytesToHex (bs : List Nat) : List Nat :=
  (bs.map byteToHex).join

/-- The value of one hex digit (`bytes.fromhex` accepts both cases);
`none` on a non-hex code point. -/
def hexVal (c : Nat) : Option Nat :=
  if 48 ≤ c ∧ c ≤ 57 then some (c - 48)
  else if 97 ≤ c ∧ c ≤ 102 then some (c - 87)
  else if 65 ≤ c ∧ c ≤ 70 then some (c - 55)
  else none

/-- `bytes.fromhex(s)`: pairs of hex digits; odd length or a non-hex
digit raises `ValueError`. -/
def hexToBytes : List Nat → Except String (List Nat)
  | [] => .ok []
  | [_] => .error "ValueError: non-hexadecimal number found in fromhex"
  | c1 :: c2 :: rest =>
      match hexVal c1, hexVal c2 with
      | some hi, some lo => (hexToBytes rest).map (fun bs => (16 * hi + lo) :: bs)
      | _, _ => .error "ValueError: non-hexadecimal number found in fromhex"

/-- The decimal digits of a number, most significant first, with
enough fuel (`n + 1` always suffices); `str(k)` for a token id. -/
def natToDigits : Nat → Nat → List Nat
  | 0, _ => []
  | fuel + 1, n =>
      if n < 10 then [48 + n]
      else natToDigits fuel (n / 10) ++ [48 + n % 10]

/-- `str(k)` for a non-negative integer id. -/
def natToString (n : Nat) : List Nat :=
  natToDigits (n + 1) n

/-- The value of one decimal digit. -/
def digitVal (c : Nat) : Option Nat :=
  if 48 ≤ c ∧ c ≤ 57 then some (c - 48) else none

/-- `int(s)` on the decimal id strings `save_state` writes (a
non-empty run of digits); anything else raises `ValueError`. -/
def parseNat (cs : List Nat) : Except String Nat :=
  if cs = [] then .error "ValueError: invalid literal for int"
  else
    cs.foldlM
      (fun acc c =>
        match digitVal c with
        | some d => .ok (10 * acc + d)
        | none => (.error "ValueError: invalid literal for int" : Except String Nat))
      0

/-- `Path(prefix).name`: the final path component (strips directory
parts; 47 is the slash). -/
def lastComponent (p : List Nat) : List Nat :=
  (p.reverse.takeWhile (fun c => c ≠ 47)).reverse

/-- `<folder>/<sanitized_prefix>_tokenizer.json` — built identically
by `save_state` and `load_state` (`_tokenizer.json` suffix appended to
the sanitized prefix). -/
def mkTokenizerFilename (pfx folder : List Nat) : List Nat :=
  folder ++ [47] ++ lastComponent pfx ++
    [95, 116, 111, 107, 101, 110, 105, 122, 101, 114, 46, 106, 115, 111, 110]

/-- `Tokenizer.save_state(prefix, folder)`: serialize merges as
2-element arrays and vocab as `{str(k): bytes.hex(v)}` (insertion
order), and bind the target file name to the document.  Returns the
target path and the updated store. -/
def Tokenizer.saveState (merges : List Pair) (vocab : Vocab)
    (pfx folder : List Nat) (store : FileStore) : List Nat × FileStore :=
  let doc : SavedState :=
    { version := 1
      merges := merges.map (fun p => [p.1, p.2])
      vocab := vocab.map (fun e => (natToString e.1, bytesToHex e.2)) }
  let target := mkTokenizerFilename pfx folder
  (target, setK store target doc)

/-- `Tokenizer.load_state(prefix, folder)`: read the file (missing →
not-found error), check `version == 1`, rebuild merges as tuples from
the 2-element arrays `save_state` writes, and rebuild vocab through
`int(...)` and `bytes.fromhex(...)` with `ValueError` on malformed
entries. -/
def Tokenizer.loadState (pfx folder : List Nat) (store : FileStore) :
    Except String (List Pair × Vocab) := do
  let filepath := mkTokenizerFilename pfx folder
  match lookupK store filepath with
  | none => .error "FileNotFoundError: Tokenizer state file not found"
  | some data =>
      if data.version ≠ 1 then
        .error "ValueError: Unsupported tokenizer state version"
      else do
        let merges ← data.merges.mapM
          (fun l =>
            match l with
            | [a, b] => (.ok (a, b) : Except String Pair)
            | _ => .error "malformed merges entry")
        let vocab ← data.vocab.mapM
          (fun e => do
            let tokId ← parseNat e.1
            let bs ← hexToBytes e.2
            pure ((tokId, bs) : Nat × List Nat))
        .ok (merges, vocab)

/-! ## `pretokenizer.generate_text_chunks`

Source: `src/toksmith/pretokenizer.py`.  The file is a sequence of
code points read `chunk_size` characters at a time; the delimiter is a
compiled regex whose matching behaviour is a parameter
`find : List Nat → List (Nat × Nat)` returning the ordered,
non-overlapping match spans `[start, end)` (for the concrete claim the
delimiter is the literal string `"<>"`, whose matcher is
`litFindIter`).  The `while` loop is embedded with fuel
(`file.length + 2` iterations always suffice: every iteration that
recurses consumes at least one character of the remaining file). -/

/-- Leftmost, non-overlapping literal matching, as `regex.finditer`
behaves on a literal (escaped) pattern.  `i` is the absolute position
of `rest` in the text; fuel is the length of `rest` plus one. -/
def litFindGo (pat : List Nat) : Nat → Nat → List Nat → List (Nat × Nat)
  | 0, _, _ => []
  | _ + 1, _, [] => []
  | fuel + 1, i, c :: rest =>
      if pat ≠ [] ∧ pat.isPrefixOf (c :: rest) then
        (i, i + pat.length) :: litFindGo pat fuel (i + pat.length) ((c :: rest).drop pat.length)
      else
        litFindGo pat fuel (i + 1) rest

/-- All spans of the literal pattern in the text. -/
def litFindIter (pat : List Nat) (text : List Nat) : List (Nat × Nat) :=
  litFindGo pat (text.length + 1) 0 text

/-- The match loop of the not-at-EOF branch: for each span
`[start, end)` form `current[cur_end:start)`, set `cur_end = end`,
yield the segment if non-empty, and break once `start ≥
effective_size` (the rest becomes the next buffer).  Returns the
yielded segments and the final `cur_end`. -/
def mainScan (current : List Nat) (effectiveSize : Int) :
    List (Nat × Nat) → Nat → List (List Nat) × Nat
  | [], curEnd => ([], curEnd)
  | (start, e) :: rest, curEnd =>
      let segment := (current.drop curEnd).take (start - curEnd)
      if (start : Int) ≥ effectiveSize then
        ((if segment = [] then [] else [segment]), e)
      else
        let next := mainScan current effectiveSize rest e
        ((if segment = [] then [] else [segment]) ++ next.1, next.2)

/-- The match loop of the EOF branch: no break; same segment
formation. -/
def eofScan (current : List Nat) :
    List (Nat × Nat) → Nat → List (List Nat) × Nat
  | [], curEnd => ([], curEnd)
  | (start, e) :: rest, curEnd =>
      let segment := (current.drop curEnd).take (start - curEnd)
      let next := eofScan current rest e
      ((if segment = [] then [] else [segment]) ++ next.1, next.2)

/-- The `while not file_is_finished` loop.  Each iteration reads
`chunk_size` characters; on an empty read the file is finished and the
EOF branch yields the remaining segments plus the non-empty leftover;
when the chunk is smaller than the overlap (`effective_size ≤ 0`) it
is carried over as the next buffer; otherwise the main branch yields
the segments before `effective_size` and carries the tail. -/
def chunkLoop (chunkSize overlap : Nat) (find : List Nat → List (Nat × Nat)) :
    Nat → List Nat → List Nat → List (List Nat)
  | 0, _, _ => []
  | fuel + 1, buffer, rest =>
      let newRead := rest.take chunkSize
      let current := buffer ++ newRead
      if newRead = [] then
        -- file_is_finished: the effective-size check only resets the
        -- buffer, then control falls through to the EOF branch on
        -- `current_chunk`
        let scanned := eofScan current (find current) 0
        scanned.1 ++
          (if scanned.2 < current.length then [current.drop scanned.2] else [])
      else
        let effectiveSize : Int := (current.length : Int) - (overlap : Int)
        if effectiveSize ≤ 0 then
          chunkLoop chunkSize overlap find fuel current (rest.drop chunkSize)
        else
          let scanned := mainScan current effectiveSize (find current) 0
          scanned.1 ++
            chunkLoop chunkSize overlap find fuel (current.drop scanned.2)
              (rest.drop chunkSize)

/-- `generate_text_chunks(file_path, delimiter, chunk_size,
overlap_size)`: run the loop on the file contents with sufficient
fuel. -/
def generateTextChunks (find : List Nat → List (Nat × Nat))
    (chunkSize overlap : Nat) (file : List Nat) : List (List Nat) :=
  chunkLoop chunkSize overlap find (file.length + 2) [] file

/-! ## Reference quantities for the invariant claims -/

/-- The number of adjacent occurrences of a pair in a pretoken. -/
def occurrences (p : Pair) (pt : Pretoken) : Nat :=
  (adjPairs pt).count p

/-- The reference value of `PairCount[p]`:
`Σ over pretokens PT of occurrences(p, PT) × PretokenCount[PT]`. -/
def pairTrueCount (pretokenCount : PretokenCnt) (p : Pair) : Nat :=
  (pretokenCount.map (fun e => occurrences p e.1 * e.2)).sum

/-- Standard lexicographic `≤` on pairs of token ids (Python 2-tuple
ordering). -/
def pairLexLe (q p : Pair) : Prop :=
  q.1 < p.1 ∨ (q.1 = p.1 ∧ q.2 ≤ p.2)

/-! ## Helper lemmas about the heap order and `popMinFrom` -/

theorem entryLe_refl (e : HeapEntry) : entryLe e e := by
  obtain ⟨c, a, b⟩ := e
  simp [entryLe, entryKey]

theorem entryLe_total (e f : HeapEntry) : entryLe e f ∨ entryLe f e := by
  obtain ⟨c, a, b⟩ := e
  obtain ⟨c', a', b'⟩ := f
  simp only [entryLe, entryKey]
  omega

theorem entryLe_trans {e f g : HeapEntry} (h1 : entryLe e f) (h2 : entryLe f g) :
    entryLe e g := by
  obtain ⟨c, a, b⟩ := e
  obtain ⟨c', a', b'⟩ := f
  obtain ⟨c'', a'', b''⟩ := g
  simp only [entryLe, entryKey] at *
  omega

/-- Translation from the negated heap order to the claim's reading:
a minimal heap entry has maximal count, with lexicographically
greatest pair as the tie-break. -/
theorem entryLe_elim {cnt d : Nat} {p q : Pair}
    (h : entryLe (cnt, p) (d, q)) : d < cnt ∨ (d = cnt ∧ pairLexLe q p) := by
  obtain ⟨a, b⟩ := p
  obtain ⟨x, y⟩ := q
  simp only [entryLe, entryKey, pairLexLe] at *
  omega

theorem popMinFrom_perm :
    ∀ (l : List HeapEntry) (e : HeapEntry),
      List.Perm ((popMinFrom e l).1 :: (popMinFrom e l).2) (e :: l) := by
  intro l
  induction l with
  | nil => intro e; simp [popMinFrom]
  | cons f rest ih =>
      intro e
      by_cases h : entryLe e f
      · simp only [popMinFrom, if_pos h]
        exact ((List.Perm.swap _ _ _).trans ((ih e).cons f)).trans (List.Perm.swap _ _ _)
      · simp only [popMinFrom, if_neg h]
        exact (List.Perm.swap _ _ _).trans ((ih f).cons e)

theorem popMinFrom_min :
    ∀ (l : List HeapEntry) (e : HeapEntry), ∀ f ∈ e :: l, entryLe (popMinFrom e l).1 f := by
  intro l
  induction l with
  | nil =>
      intro e f hf
      simp only [popMinFrom]
      simp at hf
      subst hf
      exact entryLe_refl f
  | cons g rest ih =>
      intro e f hf
      simp only [List.mem_cons] at hf
      by_cases h : entryLe e g
      · simp only [popMinFrom, if_pos h]
        rcases hf with hf | hf | hf
        · subst hf; exact ih f f (by simp)
        · subst hf
          exact entryLe_trans (ih e e (by simp)) h
        · exact ih e f (by simp [hf])
      · simp only [popMinFrom, if_neg h]
        rcases entryLe_total e g with he | hg
        · exact absurd he h
        · rcases hf with hf | hf | hf
          · subst hf
            exact entryLe_trans (ih g g (by simp)) hg
          · subst hf; exact ih f f (by simp)
          · exact ih g f (by simp [hf])

theorem popMinFrom_length (e : HeapEntry) (l : List HeapEntry) :
    (popMinFrom e l).2.length = l.length := by
  have h := (popMinFrom_perm l e).length_eq
  simpa using h

theorem lookupK_mem {κ ν : Type} [DecidableEq κ] {m : List (κ × ν)} {k : κ} {v : ν}
    (h : lookupK m k = some v) : (k, v) ∈ m := by
  induction m with
  | nil => simp [lookupK] at h
  | cons e rest ih =>
      obtain ⟨k', v'⟩ := e
      by_cases hk : k' = k
      · subst hk
        simp [lookupK] at h
        simp [h]
      · simp only [lookupK, if_neg hk] at h
        exact List.mem_cons_of_mem _ (ih h)

/-- Correctness of the lazy-deletion pop loop: starting from a heap
that holds an entry `(c, p)` for every live pair `p` (with `c` the
authoritative count), and enough fuel, the loop returns a fresh pair
of maximal count, lexicographically greatest among ties. -/
theorem mostCommonPairGo_spec (pc : PairCnt)
    (hpos : ∀ p c, lookupK pc p = some c → 0 < c) (hne : pc ≠ []) :
    ∀ (fuel : Nat) (heap : List HeapEntry),
      (∀ p c, lookupK pc p = some c → ((c, p) : HeapEntry) ∈ heap) →
      heap.length ≤ fuel →
      ∃ pair cnt rest, mostCommonPairGo pc fuel heap = some (pair, cnt, rest) ∧
        lookupK pc pair = some cnt ∧
        ∀ q d, lookupK pc q = some d → d < cnt ∨ (d = cnt ∧ pairLexLe q pair) := by
  have hhead : ∃ p0 c0, lookupK pc p0 = some c0 := by
    obtain ⟨e0, tl, rfl⟩ := List.exists_cons_of_ne_nil hne
    exact ⟨e0.1, e0.2, by simp [lookupK]⟩
  intro fuel
  induction fuel with
  | zero =>
      intro heap hheap hlen
      obtain ⟨p0, c0, hp0⟩ := hhead
      have hmem := hheap p0 c0 hp0
      have : heap ≠ [] := by rintro rfl; simp at hmem
      obtain ⟨_, _, rfl⟩ := List.exists_cons_of_ne_nil this
      simp at hlen
  | succ fuel ih =>
      intro heap hheap hlen
      cases heap with
      | nil =>
          obtain ⟨p0, c0, hp0⟩ := hhead
          have hmem := hheap p0 c0 hp0
          simp at hmem
      | cons e rest =>
          by_cases hfresh :
              lookupD pc (popMinFrom e rest).1.2 0 = (popMinFrom e rest).1.1
          · refine ⟨(popMinFrom e rest).1.2, (popMinFrom e rest).1.1,
              (popMinFrom e rest).2, ?_, ?_, ?_⟩
            · simp [mostCommonPairGo, hfresh]
            · obtain ⟨p0, c0, hp0⟩ := hhead
              have hmem := hheap p0 c0 hp0
              have hle := popMinFrom_min rest e (c0, p0) hmem
              have helim := entryLe_elim hle
              have hc0 := hpos p0 c0 hp0
              have hcnt : 0 < (popMinFrom e rest).1.1 := by
                rcases helim with h | ⟨h, _⟩
                · exact lt_trans hc0 h
                · exact h ▸ hc0
              cases hlk : lookupK pc (popMinFrom e rest).1.2 with
              | none =>
                  exfalso
                  rw [lookupD, hlk] at hfresh
                  simp at hfresh
                  omega
              | some v =>
                  rw [lookupD, hlk] at hfresh
                  simp at hfresh
                  exact congrArg some hfresh
            · intro q d hqd
              have hmem := hheap q d hqd
              exact entryLe_elim (popMinFrom_min rest e (d, q) hmem)
          · have hstep : mostCommonPairGo pc (fuel + 1) (e :: rest) =
                mostCommonPairGo pc fuel (popMinFrom e rest).2 := by
              simp [mostCommonPairGo, hfresh]
            rw [hstep]
            apply ih
            · intro q d hqd
              have hmem := hheap q d hqd
              have hperm := popMinFrom_perm rest e
              have hmem2 : ((d, q) : HeapEntry) ∈
                  (popMinFrom e rest).1 :: (popMinFrom e rest).2 :=
                hperm.mem_iff.mpr hmem
              rcases List.mem_cons.mp hmem2 with heq | hmem3
              · exfalso
                apply hfresh
                rw [← heq]
                simp [lookupD, hqd]
              · exact hmem3
            · have hl := popMinFrom_length e rest
              simp only [List.length_cons] at hlen
              omega

/-! ## Helper lemmas about the `max(...)` of `BasicMerger.step` -/

theorem basicKeyLt_irrefl (x : Pair × Nat) : ¬ basicKeyLt x x := by
  obtain ⟨⟨a, b⟩, c⟩ := x
  simp only [basicKeyLt]
  omega

theorem basicKeyLt_trans {x y z : Pair × Nat}
    (h1 : basicKeyLt x y) (h2 : basicKeyLt y z) : basicKeyLt x z := by
  obtain ⟨⟨a, b⟩, c⟩ := x
  obtain ⟨⟨a', b'⟩, c'⟩ := y
  obtain ⟨⟨a'', b''⟩, c''⟩ := z
  simp only [basicKeyLt] at *
  omega

theorem basicKeyLt_of_lt_of_not_lt {x y z : Pair × Nat}
    (h1 : basicKeyLt x y) (h2 : ¬ basicKeyLt z y) : basicKeyLt x z := by
  obtain ⟨⟨a, b⟩, c⟩ := x
  obtain ⟨⟨a', b'⟩, c'⟩ := y
  obtain ⟨⟨a'', b''⟩, c''⟩ := z
  simp only [basicKeyLt] at *
  omega

/-- The `rest.foldl` realizing Python `max(...)`: the result is one of
the scanned items and no scanned item compares strictly greater. -/
theorem foldlMax_spec :
    ∀ (rest : List (Pair × Nat)) (e : Pair × Nat),
      (rest.foldl (fun best it => if basicKeyLt best it then it else best) e ∈ e :: rest) ∧
      ∀ it ∈ e :: rest,
        ¬ basicKeyLt (rest.foldl (fun best it => if basicKeyLt best it then it else best) e) it := by
  intro rest
  induction rest with
  | nil =>
      intro e
      refine ⟨by simp, ?_⟩
      intro it hit
      simp at hit
      subst hit
      exact basicKeyLt_irrefl _
  | cons g tail ih =>
      intro e
      simp only [List.foldl_cons]
      by_cases h : basicKeyLt e g
      · rw [if_pos h]
        obtain ⟨hm, hmax⟩ := ih g
        constructor
        · rcases List.mem_cons.mp hm with hh | hh
          · simp [hh]
          · simp [List.mem_cons_of_mem, hh]
        · intro it hit
          rcases List.mem_cons.mp hit with rfl | hit2
          · intro hcon
            exact hmax g (by simp) (basicKeyLt_trans hcon h)
          · exact hmax it hit2
      · rw [if_neg h]
        obtain ⟨hm, hmax⟩ := ih e
        constructor
        · rcases List.mem_cons.mp hm with hh | hh
          · simp [hh]
          · simp [List.mem_cons_of_mem, hh]
        · intro it hit
          rcases List.mem_cons.mp hit with rfl | hit2
          · exact hmax it (by simp)
          · rcases List.mem_cons.mp hit2 with rfl | hit3
            · intro hcon
              exact hmax e (by simp) (basicKeyLt_of_lt_of_not_lt hcon h)
            · exact hmax it (by simp [hit3])

/-- Negated `max` key comparison, read as the claim's rule: every item
has strictly smaller count, or equal count and lexicographically
smaller-or-equal pair. -/
theorem basicKeyNotLt_elim {p : Pair} {cnt : Nat} {q : Pair} {d : Nat}
    (h : ¬ basicKeyLt (p, cnt) (q, d)) : d < cnt ∨ (d = cnt ∧ pairLexLe q p) := by
  obtain ⟨a, b⟩ := p
  obtain ⟨x, y⟩ := q
  simp only [basicKeyLt, pairLexLe] at *
  omega

/-! ## Helper lemmas for the pair-index invariant at initialization -/

theorem lookupK_setK {κ ν : Type} [DecidableEq κ] (m : List (κ × ν)) (k : κ) (v : ν)
    (key : κ) :
    lookupK (setK m k v) key = if k = key then some v else lookupK m key := by
  induction m with
  | nil => simp [setK, lookupK]
  | cons e rest ih =>
      obtain ⟨k', v'⟩ := e
      by_cases h1 : k' = k
      · subst h1
        by_cases h2 : k' = key
        · subst h2; simp [setK, lookupK]
        · simp [setK, lookupK, h2]
      · by_cases h2 : k' = key
        · subst h2
          have : ¬ k = k' := fun h => h1 h.symm
          simp [setK, lookupK, h1, this]
        · simp [setK, lookupK, h1, h2, ih]

theorem lookupK_append {κ ν : Type} [DecidableEq κ] (m l : List (κ × ν)) (key : κ) :
    lookupK (m ++ l) key =
      match lookupK m key with
      | some v => some v
      | none => lookupK l key := by
  induction m with
  | nil => simp [lookupK]
  | cons e rest ih =>
      obtain ⟨k', v'⟩ := e
      by_cases h : k' = key
      · simp [lookupK, h]
      · simp [lookupK, h, ih]

theorem addS_ne_nil {α : Type} [DecidableEq α] (s : List α) (x : α) : addS s x ≠ [] := by
  unfold addS
  by_cases h : x ∈ s
  · simp only [if_pos h]
    rintro rfl
    simp at h
  · simp [if_neg h]

/-- Counter value after folding `pair_count[pair] += freq` over a list
of pairs: the old value plus `freq` per occurrence. -/
theorem foldl_bumpPair_lookupD (freq : Nat) :
    ∀ (ps : List Pair) (pc : PairCnt) (p : Pair),
      lookupD (ps.foldl (bumpPair freq) pc) p 0 =
        lookupD pc p 0 + ps.count p * freq := by
  intro ps
  induction ps with
  | nil => intro pc p; simp
  | cons q rest ih =>
      intro pc p
      simp only [List.foldl_cons]
      rw [ih]
      by_cases h : q = p
      · subst h
        simp [bumpPair, lookupD, lookupK_setK, List.count_cons]
        ring
      · have hne : ¬ (q == p) = true := by simpa using h
        simp [bumpPair, lookupD, lookupK_setK, h, List.count_cons, hne]

/-- Key presence after the counter fold: a key is absent iff it was
absent before and does not occur in the folded pairs. -/
theorem foldl_bumpPair_none (freq : Nat) :
    ∀ (ps : List Pair) (pc : PairCnt) (p : Pair),
      lookupK (ps.foldl (bumpPair freq) pc) p = none ↔
        lookupK pc p = none ∧ p ∉ ps := by
  intro ps
  induction ps with
  | nil => intro pc p; simp
  | cons q rest ih =>
      intro pc p
      simp only [List.foldl_cons]
      rw [ih]
      by_cases h : q = p
      · subst h
        simp [bumpPair, lookupK_setK]
      · have h' : ¬ p = q := fun hpq => h hpq.symm
        simp [bumpPair, lookupK_setK, h, h', List.mem_cons]

/-- Key presence after the adjacency fold: same characterization. -/
theorem foldl_ptpsInsert_none (pt : Pretoken) :
    ∀ (ps : List Pair) (ptps : PairToPretokens) (p : Pair),
      lookupK (ps.foldl (ptpsInsert pt) ptps) p = none ↔
        lookupK ptps p = none ∧ p ∉ ps := by
  intro ps
  induction ps with
  | nil => intro ptps p; simp
  | cons q rest ih =>
      intro ptps p
      simp only [List.foldl_cons]
      rw [ih]
      unfold ptpsInsert
      cases hq : lookupK ptps q with
      | some s =>
          by_cases h : q = p
          · subst h
            simp [lookupK_setK, hq]
          · have h' : ¬ p = q := fun hpq => h hpq.symm
            simp [lookupK_setK, h, h', List.mem_cons]
      | none =>
          by_cases h : q = p
          · subst h
            simp [lookupK_append, hq, lookupK]
          · have h' : ¬ p = q := fun hpq => h hpq.symm
            simp only [lookupK_append]
            cases hp : lookupK ptps p with
            | some s => simp [List.mem_cons, h']
            | none => simp [lookupK, h, h', List.mem_cons]

/-- All adjacency sets stay non-empty through the adjacency fold. -/
theorem foldl_ptpsInsert_ne_nil (pt : Pretoken) :
    ∀ (ps : List Pair) (ptps : PairToPretokens),
      (∀ p s, lookupK ptps p = some s → s ≠ []) →
      ∀ p s, lookupK (ps.foldl (ptpsInsert pt) ptps) p = some s → s ≠ [] := by
  intro ps
  induction ps with
  | nil => intro ptps h p s hs; exact h p s hs
  | cons q rest ih =>
      intro ptps h p s hs
      refine ih (ptpsInsert pt ptps q) ?_ p s hs
      intro p' s' hs'
      unfold ptpsInsert at hs'
      cases hq : lookupK ptps q with
      | some t =>
          rw [hq] at hs'
          rw [lookupK_setK] at hs'
          by_cases hqp : q = p'
          · rw [if_pos hqp] at hs'
            cases hs'
            exact addS_ne_nil t pt
          · rw [if_neg hqp] at hs'
            exact h p' s' hs'
      | none =>
          rw [hq] at hs'
          rw [lookupK_append] at hs'
          cases hp : lookupK ptps p' with
          | some t =>
              rw [hp] at hs'
              cases hs'
              exact h p' s' hp
          | none =>
              rw [hp] at hs'
              simp only [lookupK] at hs'
              by_cases hqp : q = p'
              · rw [if_pos hqp] at hs'
                cases hs'
                simp
              · rw [if_neg hqp] at hs'
                cases hs'

/-- The two components of `_process_pretoken` evolve independently. -/
theorem processPretoken_split (pt : Pretoken) (freq : Nat)
    (st : PairCnt × PairToPretokens) :
    processPretoken pt freq st =
      ((adjPairs pt).foldl (bumpPair freq) st.1,
        (adjPairs pt).foldl (ptpsInsert pt) st.2) := by
  unfold processPretoken
  generalize adjPairs pt = ps
  induction ps generalizing st with
  | nil => simp
  | cons q rest ih => simp [ih]

/-- Counter value of the full `_build_pair_index` fold. -/
theorem buildFold_lookupD :
    ∀ (l : PretokenCnt) (st : PairCnt × PairToPretokens) (p : Pair),
      lookupD (l.foldl (fun st e => processPretoken e.1 e.2 st) st).1 p 0 =
        lookupD st.1 p 0 + pairTrueCount l p := by
  intro l
  induction l with
  | nil => intro st p; simp [pairTrueCount]
  | cons e tl ih =>
      intro st p
      simp only [List.foldl_cons]
      rw [ih]
      rw [processPretoken_split]
      rw [foldl_bumpPair_lookupD]
      simp only [pairTrueCount, List.map_cons, List.sum_cons, occurrences]
      ring

/-- Key presence in the counter of the full fold. -/
theorem buildFold_pc_none :
    ∀ (l : PretokenCnt) (st : PairCnt × PairToPretokens) (p : Pair),
      lookupK (l.foldl (fun st e => processPretoken e.1 e.2 st) st).1 p = none ↔
        lookupK st.1 p = none ∧ ∀ e ∈ l, p ∉ adjPairs e.1 := by
  intro l
  induction l with
  | nil => intro st p; simp
  | cons e tl ih =>
      intro st p
      simp only [List.foldl_cons]
      rw [ih]
      rw [processPretoken_split]
      rw [foldl_bumpPair_none]
      constructor
      · rintro ⟨⟨h1, h2⟩, h3⟩
        exact ⟨h1, by
          intro f hf
          rcases List.mem_cons.mp hf with rfl | hf2
          · exact h2
          · exact h3 f hf2⟩
      · rintro ⟨h1, h2⟩
        exact ⟨⟨h1, h2 e (by simp)⟩, fun f hf => h2 f (by simp [hf])⟩

/-- Key presence in the adjacency map of the full fold. -/
theorem buildFold_ptps_none :
    ∀ (l : PretokenCnt) (st : PairCnt × PairToPretokens) (p : Pair),
      lookupK (l.foldl (fun st e => processPretoken e.1 e.2 st) st).2 p = none ↔
        lookupK st.2 p = none ∧ ∀ e ∈ l, p ∉ adjPairs e.1 := by
  intro l
  induction l with
  | nil => intro st p; simp
  | cons e tl ih =>
      intro st p
      simp only [List.foldl_cons]
      rw [ih]
      rw [processPretoken_split]
      rw [foldl_ptpsInsert_none]
      constructor
      · rintro ⟨⟨h1, h2⟩, h3⟩
        exact ⟨h1, by
          intro f hf
          rcases List.mem_cons.mp hf with rfl | hf2
          · exact h2
          · exact h3 f hf2⟩
      · rintro ⟨h1, h2⟩
        exact ⟨⟨h1, h2 e (by simp)⟩, fun f hf => h2 f (by simp [hf])⟩

/-- Non-emptiness of all adjacency sets of the full fold. -/
theorem buildFold_ptps_ne_nil :
    ∀ (l : PretokenCnt) (st : PairCnt × PairToPretokens),
      (∀ p s, lookupK st.2 p = some s → s ≠ []) →
      ∀ p s, lookupK (l.foldl (fun st e => processPretoken e.1 e.2 st) st).2 p = some s →
        s ≠ [] := by
  intro l
  induction l with
  | nil => intro st h p s hs; exact h p s hs
  | cons e tl ih =>
      intro st h p s hs
      simp only [List.foldl_cons] at hs
      refine ih _ ?_ p s hs
      rw [processPretoken_split]
      exact foldl_ptpsInsert_ne_nil e.1 (adjPairs e.1) st.2 h

/-! ## Helper lemmas for the pre-tokenizer equivalence -/

theorem utf8Char_ne_nil (c : Nat) : utf8Char c ≠ [] := by
  unfold utf8Char
  split_ifs <;> simp

theorem utf8Char_append_inj {c1 c2 : Nat} {r1 r2 : List Nat}
    (h : utf8Char c1 ++ r1 = utf8Char c2 ++ r2) : c1 = c2 ∧ r1 = r2 := by
  unfold utf8Char at h
  split_ifs at h <;>
    simp only [List.cons_append, List.nil_append, List.cons.injEq] at h <;>
    first
      | exact ⟨h.1, h.2⟩
      | exact ⟨by omega, h.2.2⟩
      | exact ⟨by omega, h.2.2.2⟩
      | exact ⟨by omega, h.2.2.2.2⟩
      | (exfalso; obtain ⟨hx, _⟩ := h; omega)

theorem utf8Str_inj : ∀ s1 s2 : List Nat, utf8Str s1 = utf8Str s2 → s1 = s2 := by
  intro s1
  induction s1 with
  | nil =>
      intro s2 h
      cases s2 with
      | nil => rfl
      | cons d t =>
          exfalso
          simp only [utf8Str, List.map_nil, List.join, List.map_cons, List.join_cons] at h
          exact utf8Char_ne_nil d (List.append_eq_nil.mp h.symm).1
  | cons c r ih =>
      intro s2 h
      cases s2 with
      | nil =>
          exfalso
          simp only [utf8Str, List.map_nil, List.join, List.map_cons, List.join_cons] at h
          exact utf8Char_ne_nil c (List.append_eq_nil.mp h).1
      | cons d t =>
          simp only [utf8Str, List.map_cons, List.join_cons] at h
          obtain ⟨hc, hr⟩ := utf8Char_append_inj h
          rw [hc, ih t hr]

/-- Key lookup through the injective key-encoding map, at an encoded
key. -/
theorem lookupK_encodeKeys_enc (m : List (List Nat × Nat)) (k : List Nat) :
    lookupK (encodeKeys m) (utf8Str k) = lookupK m k := by
  induction m with
  | nil => simp [encodeKeys, lookupK]
  | cons e rest ih =>
      by_cases h : e.1 = k
      · simp [encodeKeys, lookupK, h]
      · have henc : ¬ utf8Str e.1 = utf8Str k := fun hh => h (utf8Str_inj _ _ hh)
        simp only [encodeKeys, List.map_cons, lookupK, if_neg henc, if_neg h]
        simpa [encodeKeys] using ih

/-- Key lookup through the key-encoding map at a byte string that is
not the encoding of any key. -/
theorem lookupK_encodeKeys_notin (m : List (List Nat × Nat)) (b : List Nat)
    (hb : ∀ k, utf8Str k ≠ b) :
    lookupK (encodeKeys m) b = none := by
  induction m with
  | nil => simp [encodeKeys, lookupK]
  | cons e rest ih =>
      simp only [encodeKeys, List.map_cons, lookupK, if_pos, if_neg (hb e.1)]
      simpa [encodeKeys] using ih

/-- Counter value after folding `c[t] += 1` over the match list. -/
theorem foldl_bumpTok_lookupD :
    ∀ (ms : List (List Nat)) (c : List (List Nat × Nat)) (t : List Nat),
      lookupD (ms.foldl bumpTok c) t 0 = lookupD c t 0 + ms.count t := by
  intro ms
  induction ms with
  | nil => intro c t; simp
  | cons q rest ih =>
      intro c t
      simp only [List.foldl_cons]
      rw [ih]
      by_cases h : q = t
      · subst h
        simp [bumpTok, lookupD, lookupK_setK, List.count_cons]
        ring
      · have h' : ¬ (q == t) = true := by simpa using h
        simp [bumpTok, lookupD, lookupK_setK, h, h', List.count_cons]

/-- Key presence after folding `c[t] += 1` over the match list. -/
theorem foldl_bumpTok_none :
    ∀ (ms : List (List Nat)) (c : List (List Nat × Nat)) (t : List Nat),
      lookupK (ms.foldl bumpTok c) t = none ↔ lookupK c t = none ∧ t ∉ ms := by
  intro ms
  induction ms with
  | nil => intro c t; simp
  | cons q rest ih =>
      intro c t
      simp only [List.foldl_cons]
      rw [ih]
      by_cases h : q = t
      · subst h
        simp [bumpTok, lookupK_setK]
      · have h' : ¬ t = q := fun ht => h ht.symm
        simp [bumpTok, lookupK_setK, h, h', List.mem_cons]

/-- The per-key total of the entries of a counter list. -/
def entrySum (m : List (List Nat × Nat)) (t : List Nat) : Nat :=
  (m.map (fun e => if e.1 = t then e.2 else 0)).sum

theorem entrySum_of_none {m : List (List Nat × Nat)} {t : List Nat}
    (h : lookupK m t = none) : entrySum m t = 0 := by
  induction m with
  | nil => simp [entrySum]
  | cons e rest ih =>
      by_cases he : e.1 = t
      · simp [lookupK, he] at h
      · simp only [lookupK, if_neg he] at h
        simp [entrySum, he]
        have := ih h
        simpa [entrySum] using this

/-- For counters with duplicate-free keys the per-key entry total is
the lookup value. -/
theorem entrySum_eq_lookupD {m : List (List Nat × Nat)} {t : List Nat}
    (hnd : (m.map (fun e => e.1)).Nodup) : entrySum m t = lookupD m t 0 := by
  induction m with
  | nil => simp [entrySum, lookupD, lookupK]
  | cons e rest ih =>
      simp only [List.map_cons, List.nodup_cons] at hnd
      by_cases he : e.1 = t
      · subst he
        have hnone : lookupK rest e.1 = none := by
          cases hl : lookupK rest e.1 with
          | none => rfl
          | some v =>
              exfalso
              apply hnd.1
              exact List.mem_map.mpr ⟨(e.1, v), lookupK_mem hl, rfl⟩
        have h0 := entrySum_of_none hnone
        simp only [entrySum] at h0
        simp [entrySum, lookupD, lookupK, h0]
      · have h' : ¬ e.1 = t := he
        have hrest := ih hnd.2
        simp only [entrySum, lookupD] at hrest
        simp [entrySum, lookupD, lookupK, h', hrest]

/-- Keys of `setK m k v` come from `{k}` or the keys of `m`. -/
theorem mem_keys_setK {κ ν : Type} [DecidableEq κ] :
    ∀ (m : List (κ × ν)) (k : κ) (v : ν) (x : κ),
      x ∈ (setK m k v).map (fun e => e.1) → x = k ∨ x ∈ m.map (fun e => e.1) := by
  intro m
  induction m with
  | nil =>
      intro k v x hx
      simp [setK] at hx
      exact Or.inl hx
  | cons e rest ih =>
      intro k v x hx
      obtain ⟨e1, e2⟩ := e
      by_cases h : e1 = k
      · simp only [setK, if_pos h, List.map_cons, List.mem_cons] at hx
        rcases hx with rfl | hx
        · exact Or.inl rfl
        · exact Or.inr (by simp [hx])
      · simp only [setK, if_neg h, List.map_cons, List.mem_cons] at hx
        rcases hx with rfl | hx
        · exact Or.inr (by simp)
        · rcases ih k v x hx with h1 | h1
          · exact Or.inl h1
          · exact Or.inr (by simp [h1])

/-- `setK` preserves duplicate-freeness of the key list. -/
theorem setK_keys_nodup {κ ν : Type} [DecidableEq κ] :
    ∀ (m : List (κ × ν)) (k : κ) (v : ν),
      (m.map (fun e => e.1)).Nodup → ((setK m k v).map (fun e => e.1)).Nodup := by
  intro m
  induction m with
  | nil => intro k v _; simp [setK]
  | cons e rest ih =>
      intro k v hnd
      obtain ⟨e1, e2⟩ := e
      simp only [List.map_cons, List.nodup_cons] at hnd
      by_cases h : e1 = k
      · subst h
        simp only [setK, if_true]
        simp only [List.map_cons, List.nodup_cons]
        exact hnd
      · simp only [setK, if_neg h, List.map_cons, List.nodup_cons]
        refine ⟨?_, ih k v hnd.2⟩
        intro hmem
        rcases mem_keys_setK rest k v e1 hmem with h1 | h1
        · exact h h1
        · exact hnd.1 h1

/-- Value after `total.update(chunk)`: old value plus the chunk's
per-key entry total. -/
theorem counterUpdate_lookupD :
    ∀ (chunk tot : List (List Nat × Nat)) (t : List Nat),
      lookupD (counterUpdate tot chunk) t 0 = lookupD tot t 0 + entrySum chunk t := by
  intro chunk
  induction chunk with
  | nil => intro tot t; simp [counterUpdate, entrySum]
  | cons e rest ih =>
      intro tot t
      simp only [counterUpdate, List.foldl_cons]
      have := ih (setK tot e.1 (lookupD tot e.1 0 + e.2)) t
      simp only [counterUpdate] at this
      rw [this]
      by_cases h : e.1 = t
      · subst h
        simp [lookupD, lookupK_setK, entrySum]
        ring
      · simp [lookupD, lookupK_setK, h, entrySum]

/-- Key presence after `total.update(chunk)`. -/
theorem counterUpdate_none :
    ∀ (chunk tot : List (List Nat × Nat)) (t : List Nat),
      lookupK (counterUpdate tot chunk) t = none ↔
        lookupK tot t = none ∧ lookupK chunk t = none := by
  intro chunk
  induction chunk with
  | nil => intro tot t; simp [counterUpdate, lookupK]
  | cons e rest ih =>
      intro tot t
      simp only [counterUpdate, List.foldl_cons]
      have := ih (setK tot e.1 (lookupD tot e.1 0 + e.2)) t
      simp only [counterUpdate] at this
      rw [this]
      by_cases h : e.1 = t
      · subst h
        simp [lookupK_setK, lookupK]
      · simp [lookupK_setK, h, lookupK]

/-- Keys of a freshly built `count_tokens` counter are duplicate-free. -/
theorem countTokens_keys_nodup (tok : List Nat → List (List Nat)) (text : List Nat) :
    ((countTokens tok text).map (fun e => e.1)).Nodup := by
  unfold countTokens
  generalize tok text = ms
  have : ∀ (ms : List (List Nat)) (c : List (List Nat × Nat)),
      (c.map (fun e => e.1)).Nodup → ((ms.foldl bumpTok c).map (fun e => e.1)).Nodup := by
    intro ms
    induction ms with
    | nil => intro c h; exact h
    | cons q rest ih =>
        intro c h
        exact ih _ (setK_keys_nodup c q _ h)
  exact this ms [] (by simp)

/-- The chunk's per-key entry total is the per-segment match count. -/
theorem entrySum_countTokens (tok : List Nat → List (List Nat)) (seg : List Nat)
    (t : List Nat) :
    entrySum (countTokens tok seg) t = (tok seg).count t := by
  rw [entrySum_eq_lookupD (countTokens_keys_nodup tok seg)]
  unfold countTokens
  have := foldl_bumpTok_lookupD (tok seg) [] t
  simpa [lookupD, lookupK] using this

/-- Value of the reduced multiprocessing total: the sum of the
per-segment match counts. -/
theorem multiTotal_lookupD (tok : List Nat → List (List Nat)) :
    ∀ (segs : List (List Nat)) (tot : List (List Nat × Nat)) (t : List Nat),
      lookupD (segs.foldl (fun tot seg => counterUpdate tot (countTokens tok seg)) tot) t 0 =
        lookupD tot t 0 + (segs.map (fun seg => (tok seg).count t)).sum := by
  intro segs
  induction segs with
  | nil => intro tot t; simp
  | cons seg rest ih =>
      intro tot t
      simp only [List.foldl_cons, List.map_cons, List.sum_cons]
      rw [ih, counterUpdate_lookupD, entrySum_countTokens]
      ring

/-- Key presence in the reduced multiprocessing total. -/
theorem multiTotal_none (tok : List Nat → List (List Nat)) :
    ∀ (segs : List (List Nat)) (tot : List (List Nat × Nat)) (t : List Nat),
      lookupK (segs.foldl (fun tot seg => counterUpdate tot (countTokens tok seg)) tot) t =
          none ↔
        lookupK tot t = none ∧ ∀ seg ∈ segs, t ∉ tok seg := by
  intro segs
  induction segs with
  | nil => intro tot t; simp
  | cons seg rest ih =>
      intro tot t
      simp only [List.foldl_cons]
      rw [ih, counterUpdate_none]
      have hchunk : lookupK (countTokens tok seg) t = none ↔ t ∉ tok seg := by
        unfold countTokens
        rw [foldl_bumpTok_none]
        simp [lookupK]
      rw [hchunk]
      constructor
      · rintro ⟨⟨h1, h2⟩, h3⟩
        refine ⟨h1, ?_⟩
        intro s hs
        rcases List.mem_cons.mp hs with rfl | hs2
        · exact h2
        · exact h3 s hs2
      · rintro ⟨h1, h2⟩
        exact ⟨⟨h1, h2 seg (by simp)⟩, fun s hs => h2 s (by simp [hs])⟩

/-- Counting distributes over concatenation of token lists. -/
theorem count_flatten_sum (t : List Nat) :
    ∀ ls : List (List (List Nat)),
      ls.join.count t = (ls.map (fun l => l.count t)).sum := by
  intro ls
  induction ls with
  | nil => simp
  | cons l rest ih => simp [List.count_append, ih]

/-! ## Helper lemmas for the persisted-state round trip -/

theorem hexVal_hexDigit {x : Nat} (h : x < 16) : hexVal (hexDigit x) = some x := by
  unfold hexDigit hexVal
  by_cases h1 : x < 10
  · rw [if_pos h1, if_pos (by omega)]
    congr 1
    omega
  · rw [if_neg h1, if_neg (by omega), if_pos (by omega)]
    congr 1
    omega

theorem hexToBytes_bytesToHex :
    ∀ bs : List Nat, (∀ b ∈ bs, b < 256) → hexToBytes (bytesToHex bs) = .ok bs := by
  intro bs
  induction bs with
  | nil => intro _; rfl
  | cons b rest ih =>
      intro h
      have hb : b < 256 := h b (by simp)
      have hhi : b / 16 < 16 := by omega
      have hlo : b % 16 < 16 := by omega
      simp only [bytesToHex, List.map_cons, List.join_cons, byteToHex,
        List.cons_append, List.nil_append]
      simp only [hexToBytes, hexVal_hexDigit hhi, hexVal_hexDigit hlo]
      have := ih (fun x hx => h x (by simp [hx]))
      simp only [bytesToHex] at this
      rw [this]
      have hb16 : 16 * (b / 16) + b % 16 = b := by omega
      simp [Except.map, hb16]

theorem natToDigits_ne_nil : ∀ (fuel n : Nat), natToDigits (fuel + 1) n ≠ [] := by
  intro fuel n
  unfold natToDigits
  by_cases h : n < 10
  · simp [h]
  · simp [h]

theorem digitVal_digit {n : Nat} (h : n < 10) : digitVal (48 + n) = some n := by
  unfold digitVal
  rw [if_pos (by omega)]
  congr 1
  omega

/-- Folding the `int(...)` digit step over the digits of `n` yields
the accumulated value times a positive power of ten, plus `n`. -/
theorem parse_natToDigits :
    ∀ (fuel n : Nat), n < fuel → ∀ acc : Nat,
      ∃ m : Nat, 0 < m ∧
        (natToDigits fuel n).foldlM
            (fun acc c =>
              match digitVal c with
              | some d => (.ok (10 * acc + d) : Except String Nat)
              | none => (.error "ValueError: invalid literal for int" : Except String Nat))
            acc = .ok (acc * m + n) := by
  intro fuel
  induction fuel with
  | zero => intro n h; omega
  | succ fuel ih =>
      intro n h acc
      by_cases h10 : n < 10
      · refine ⟨10, by omega, ?_⟩
        simp only [natToDigits, if_pos h10, List.foldlM_cons, List.foldlM_nil,
          digitVal_digit h10]
        show Except.ok (10 * acc + n) = Except.ok (acc * 10 + n)
        congr 1
        omega
      · obtain ⟨m, hm, heq⟩ := ih (n / 10) (by omega) acc
        refine ⟨10 * m, by omega, ?_⟩
        simp only [natToDigits, if_neg h10]
        rw [List.foldlM_append]
        rw [heq]
        have hmod : n % 10 < 10 := by omega
        simp only [List.foldlM_cons, List.foldlM_nil, digitVal_digit hmod]
        show Except.ok (10 * (acc * m + n / 10) + n % 10) = Except.ok (acc * (10 * m) + n)
        congr 1
        have hr : acc * (10 * m) = 10 * (acc * m) := by ring
        omega

/-- `int(str(n)) = n` for the decimal strings `save_state` writes. -/
theorem parseNat_natToString (n : Nat) : parseNat (natToString n) = .ok n := by
  unfold parseNat natToString
  rw [if_neg (natToDigits_ne_nil n n)]
  obtain ⟨m, _, heq⟩ := parse_natToDigits (n + 1) n (by omega) 0
  rw [heq]
  congr 1
  simp

/-- The vocab entries written by `save_state` all load back. -/
theorem loadVocab_saveVocab :
    ∀ v : Vocab, (∀ e ∈ v, ∀ b ∈ e.2, b < 256) →
      (v.map (fun e => (natToString e.1, bytesToHex e.2))).mapM
          (fun e => do
            let tokId ← parseNat e.1
            let bs ← hexToBytes e.2
            pure ((tokId, bs) : Nat × List Nat)) = .ok v := by
  intro v
  induction v with
  | nil => intro _; rfl
  | cons e rest ih =>
      intro h
      simp only [List.map_cons, List.mapM_cons]
      rw [parseNat_natToString, hexToBytes_bytesToHex e.2 (fun b hb => h e (by simp) b hb)]
      rw [ih (fun x hx b hb => h x (by simp [hx]) b hb)]
      rfl

/-- The merges entries written by `save_state` all load back. -/
theorem loadMerges_saveMerges :
    ∀ merges : List Pair,
      (merges.map (fun p => [p.1, p.2])).mapM
          (fun l =>
            match l with
            | [a, b] => (.ok (a, b) : Except String Pair)
            | _ => .error "malformed merges entry") = .ok merges := by
  intro merges
  induction merges with
  | nil => rfl
  | cons p rest ih =>
      simp only [List.map_cons, List.mapM_cons]
      rw [ih]
      rfl

/-! ## Helper lemmas for the chunk reader -/

theorem mainScan_yields_ne_nil (current : List Nat) (eff : Int) :
    ∀ (spans : List (Nat × Nat)) (curEnd : Nat) (s : List Nat),
      s ∈ (mainScan current eff spans curEnd).1 → s ≠ [] := by
  intro spans
  induction spans with
  | nil => intro curEnd s hs; simp [mainScan] at hs
  | cons sp rest ih =>
      intro curEnd s hs
      obtain ⟨start, e⟩ := sp
      simp only [mainScan] at hs
      by_cases hbr : (start : Int) ≥ eff
      · rw [if_pos hbr] at hs
        by_cases hseg : (current.drop curEnd).take (start - curEnd) = []
        · simp [hseg] at hs
        · simp only [if_neg hseg, List.mem_singleton] at hs
          subst hs
          exact hseg
      · rw [if_neg hbr] at hs
        rcases List.mem_append.mp hs with h1 | h2
        · by_cases hseg : (current.drop curEnd).take (start - curEnd) = []
          · simp [hseg] at h1
          · simp only [if_neg hseg, List.mem_singleton] at h1
            subst h1
            exact hseg
        · exact ih e s h2

theorem eofScan_yields_ne_nil (current : List Nat) :
    ∀ (spans : List (Nat × Nat)) (curEnd : Nat) (s : List Nat),
      s ∈ (eofScan current spans curEnd).1 → s ≠ [] := by
  intro spans
  induction spans with
  | nil => intro curEnd s hs; simp [eofScan] at hs
  | cons sp rest ih =>
      intro curEnd s hs
      obtain ⟨start, e⟩ := sp
      simp only [eofScan] at hs
      rcases List.mem_append.mp hs with h1 | h2
      · by_cases hseg : (current.drop curEnd).take (start - curEnd) = []
        · simp [hseg] at h1
        · simp only [if_neg hseg, List.mem_singleton] at h1
          subst h1
          exact hseg
      · exact ih e s h2

theorem chunkLoop_yields_ne_nil (chunkSize overlap : Nat)
    (find : List Nat → List (Nat × Nat)) :
    ∀ (fuel : Nat) (buffer rest s : List Nat),
      s ∈ chunkLoop chunkSize overlap find fuel buffer rest → s ≠ [] := by
  intro fuel
  induction fuel with
  | zero => intro buffer rest s hs; simp [chunkLoop] at hs
  | succ fuel ih =>
      intro buffer rest s hs
      simp only [chunkLoop] at hs
      by_cases hread : rest.take chunkSize = []
      · rw [if_pos hread] at hs
        rcases List.mem_append.mp hs with h1 | h2
        · exact eofScan_yields_ne_nil _ _ _ s h1
        · by_cases hlt : (eofScan (buffer ++ rest.take chunkSize)
              (find (buffer ++ rest.take chunkSize)) 0).2 <
              (buffer ++ rest.take chunkSize).length
          · rw [if_pos hlt] at h2
            simp only [List.mem_singleton] at h2
            subst h2
            intro hnil
            rw [List.drop_eq_nil_iff] at hnil
            omega
          · rw [if_neg hlt] at h2
            simp at h2
      · rw [if_neg hread] at hs
        by_cases heff : ((buffer ++ rest.take chunkSize).length : Int) -
            (overlap : Int) ≤ 0
        · rw [if_pos heff] at hs
          exact ih _ _ s hs
        · rw [if_neg heff] at hs
          rcases List.mem_append.mp hs with h1 | h2
          · exact mainScan_yields_ne_nil _ _ _ _ s h1
          · exact ih _ _ s h2

end Toksmith

namespace Toksmith

/-! # Theorems for the claims -/

/-- C7: merging is left-to-right, first-match-wins, non-overlapping.
For every token id `a` and new id `X`, the standalone `_merge` rewrites
`(a,a,a)` to `(X,a)` — not `(a,X)` — and `(a,a,a,a)` to `(X,X)`.
For `FastMerger._merge_sequence`, however, the `(a,a,a,a)` case never
produces the new sequence: on the corpus `{(97,97,97,97): 1}` the call
`_merge_sequence((97,97,97,97), 1, (97,97), 256)` raises `KeyError`
(the second match decrements the incoming pair `(256,97)` to zero,
`_update_pair` deletes it from `pair_to_pretoken_set`, and the
following plain dict index on that key fails), so the part of the
claim about `_merge_sequence` fails on the code. -/
theorem merge_first_match_wins_but_mergeSequence_raises :
    (∀ a X : Nat, merge (a, a) X [a, a, a] = [X, a]) ∧
    (∀ a X : Nat, merge (a, a) X [a, a, a, a] = [X, X]) ∧
    (FastMerger.init [([97, 97, 97, 97], 1)]).mergeSequence [97, 97, 97, 97] 1 (97, 97) 256 =
      .error "KeyError: pair_to_pretoken_set" := by
  refine ⟨fun a X => by simp [merge], fun a X => by simp [merge], by rfl⟩

/-- C3: refuted on the code (`code_bug`).  `_merge_sequence` is
claimed to complete without raising even when a neighbor-pair
decrement drives the count to zero; but after `_update_pair` deletes
such a pair from `pair_count` and `pair_to_pretoken_set`, the very
next line indexes `pair_to_pretoken_set` with that key and raises
`KeyError`.  This is the repository's own unit-test input
(`test_merge_sequence`): corpus `{(1,2,3,4): 2, (2,3): 1}`, call
`_merge_sequence((1,2,3,4), 2, (2,3), 99)`; the left-neighbor pair
`(1,2)` drops to zero and the call raises instead of completing. -/
theorem mergeSequence_keyerror_on_zero_neighbor :
    (FastMerger.init [([1, 2, 3, 4], 2), ([2, 3], 1)]).mergeSequence [1, 2, 3, 4] 2 (2, 3) 99 =
      .error "KeyError: pair_to_pretoken_set" := by
  rfl

/-- C2: refuted on the code (`code_bug`).  The merge loop of
`Tokenizer.train` (and `train_from_file`) does not stop when
`merger.step` returns `None`: it only logs, then appends `None` to
`self.merges` and evaluates `self.vocab[top_pair[0]]`, raising
`TypeError`.  Concretely, training on pretokens `{(97,98): 1}` (the
text `"ab"`) with two requested merge iterations errors out instead of
stopping early and completing normally. -/
theorem trainLoop_raises_instead_of_early_stop :
    trainLoopBasic 2 256 [([97, 98], 1)] [] initVocab =
      .error "TypeError: NoneType object is not subscriptable" := by
  rfl

/-- C9: the chunk reader never yields an empty segment (for any
matcher, chunk size, overlap and file), and on the file
`"12345<>8ab<>c"` with the literal delimiter `"<>"`, `chunk_size = 8`
and `overlap_size = 4` it yields exactly the segments `"12345"`,
`"8ab"`, `"c"` in that source order (code points: `49..53`, `56 97
98`, `99`). -/
theorem chunk_reader_nonempty_and_example :
    (∀ (find : List Nat → List (Nat × Nat)) (chunkSize overlap : Nat)
        (file s : List Nat),
      s ∈ generateTextChunks find chunkSize overlap file → s ≠ []) ∧
    generateTextChunks (litFindIter [60, 62]) 8 4
        [49, 50, 51, 52, 53, 60, 62, 56, 97, 98, 60, 62, 99] =
      [[49, 50, 51, 52, 53], [56, 97, 98], [99]] := by
  constructor
  · intro find chunkSize overlap file s hs
    exact chunkLoop_yields_ne_nil chunkSize overlap find _ _ _ s hs
  · rfl

/-- Witness for C9: the first yielded segment `"12345"` of the
concrete run is a member of the output, and by the theorem it is
non-empty. -/
theorem chunk_reader_nonempty_and_example_witness :
    [49, 50, 51, 52, 53] ∈ generateTextChunks (litFindIter [60, 62]) 8 4
        [49, 50, 51, 52, 53, 60, 62, 56, 97, 98, 60, 62, 99] ∧
    ([49, 50, 51, 52, 53] : List Nat) ≠ [] :=
  ⟨by decide,
    chunk_reader_nonempty_and_example.1 (litFindIter [60, 62]) 8 4
      [49, 50, 51, 52, 53, 60, 62, 56, 97, 98, 60, 62, 99]
      [49, 50, 51, 52, 53] (by decide)⟩

/-- C10: counterexample.  The claim says `use_fast_merge` defaults to
true; in the code the declared default of `Tokenizer.train` is
`False`, so a call without `use_fast_merge` instantiates the basic
engine, not the fast one. -/
theorem trainUseFastMergeDefault_is_false :
    trainUseFastMergeDefault = false ∧
      trainMergerChoice trainUseFastMergeDefault = MergerKind.basic ∧
      MergerKind.basic ≠ MergerKind.fast := by
  decide

/-- C1: `FastMerger.step(new_id)` (modelled from the spec, see
`FastMerger.step`) returns none when `PairCount` is empty; otherwise
it selects the top pair via `most_common_pair`, invokes
`merge_sequence(old_seq, f, top_pair, new_id)` on every pretoken
`old_seq` of a snapshot of `PairToPretokens[top_pair]` (with
`f = PretokenCount[old_seq]`), and returns the selected top pair. -/
theorem FastMerger.step_empty_none_else_top_pair (st : FastMerger) (newId : Nat) :
    (st.pairCount = [] → st.step newId = .ok (none, st)) ∧
    (∀ topPair cnt heap stF,
      st.pairCount ≠ [] →
      st.mostCommonPair = some (topPair, cnt, heap) →
      (lookupD st.pairToPretokenSet topPair []).foldlM
          (fun s oldSeq =>
            FastMerger.mergeSequence s oldSeq (lookupD s.pretokenCount oldSeq 0) topPair newId)
          { st with pairHeap := heap } = .ok stF →
      st.step newId = .ok (some topPair, stF)) := by
  constructor
  · intro h
    simp [FastMerger.step, h]
  · intro topPair cnt heap stF hne hmcp hfold
    simp [FastMerger.step, hne, hmcp, hfold]
    rfl

/-- Witness for C1: on the empty engine `step` returns none, and on
the corpus `{(1,2): 1}` it returns the top pair `(1,2)` with the state
produced by merging the single containing pretoken. -/
theorem FastMerger.step_empty_none_else_top_pair_witness :
    (FastMerger.init []).step 256 = .ok (none, FastMerger.init []) ∧
    (FastMerger.init [([1, 2], 1)]).step 256 =
      .ok (some (1, 2),
        { pretokenCount := [([256], 1)]
          pairCount := [((1, 2), 1)]
          pairHeap := []
          pairToPretokenSet := [((1, 2), [[1, 2]])] }) := by
  constructor
  · exact (FastMerger.step_empty_none_else_top_pair (FastMerger.init []) 256).1 (by rfl)
  · exact (FastMerger.step_empty_none_else_top_pair (FastMerger.init [([1, 2], 1)]) 256).2
      (1, 2) 1 [] _ (by decide) (by rfl) (by rfl)

/-- C4: the tie-break rule.  (i) Whenever every live pair of
`PairCount` has a fresh entry in the heap (and, per the engine's data
model, positive count), `FastMerger._most_common_pair` returns a pair
whose count is maximal in `PairCount`, and among pairs of equal
maximal count the lexicographically greatest pair (standard 2-tuple
order on integer ids).  (ii) `BasicMerger.step` selects its top pair
`max(pair_counts.items(), key=lambda it: [it[1], it[0]])` by the same
maximal-count, lexicographically-greatest rule. -/
theorem top_pair_selection_tie_break :
    (∀ st : FastMerger,
      (∀ e ∈ st.pairCount, 0 < e.2 ∧ ((e.2, e.1) : HeapEntry) ∈ st.pairHeap) →
      st.pairCount ≠ [] →
      ∃ pair cnt rest, st.mostCommonPair = some (pair, cnt, rest) ∧
        lookupK st.pairCount pair = some cnt ∧
        ∀ q d, lookupK st.pairCount q = some d →
          d < cnt ∨ (d = cnt ∧ pairLexLe q pair)) ∧
    (∀ pairCounts : PairCnt, pairCounts ≠ [] →
      ∃ pair cnt, basicTopPair pairCounts = some (pair, cnt) ∧
        (pair, cnt) ∈ pairCounts ∧
        ∀ q d, (q, d) ∈ pairCounts → d < cnt ∨ (d = cnt ∧ pairLexLe q pair)) := by
  constructor
  · intro st hinv hne
    have hpos : ∀ p c, lookupK st.pairCount p = some c → 0 < c :=
      fun p c h => (hinv (p, c) (lookupK_mem h)).1
    have hheap : ∀ p c, lookupK st.pairCount p = some c →
        ((c, p) : HeapEntry) ∈ st.pairHeap :=
      fun p c h => (hinv (p, c) (lookupK_mem h)).2
    exact mostCommonPairGo_spec st.pairCount hpos hne st.pairHeap.length st.pairHeap
      hheap (le_refl _)
  · intro pairCounts hne
    obtain ⟨e, rest, rfl⟩ := List.exists_cons_of_ne_nil hne
    obtain ⟨hm, hmax⟩ := foldlMax_spec rest e
    refine ⟨(rest.foldl (fun best it => if basicKeyLt best it then it else best) e).1,
      (rest.foldl (fun best it => if basicKeyLt best it then it else best) e).2,
      by simp [basicTopPair], hm, ?_⟩
    intro q d hqd
    exact basicKeyNotLt_elim (hmax (q, d) hqd)

/-- Witness for C4: on the engine built from `{(1,2,3): 2, (2,3): 1}`
(pair counts `{(1,2): 2, (2,3): 3}`) both hypotheses hold and both
selectors exist; the selected top pair is `(2,3)` with count 3. -/
theorem top_pair_selection_tie_break_witness :
    (∃ pair cnt rest,
      (FastMerger.init [([1, 2, 3], 2), ([2, 3], 1)]).mostCommonPair =
        some (pair, cnt, rest) ∧
      lookupK (FastMerger.init [([1, 2, 3], 2), ([2, 3], 1)]).pairCount pair = some cnt ∧
      ∀ q d, lookupK (FastMerger.init [([1, 2, 3], 2), ([2, 3], 1)]).pairCount q = some d →
        d < cnt ∨ (d = cnt ∧ pairLexLe q pair)) ∧
    (∃ pair cnt,
      basicTopPair (pairsCount [([1, 2, 3], 2), ([2, 3], 1)]) = some (pair, cnt) ∧
      (pair, cnt) ∈ pairsCount [([1, 2, 3], 2), ([2, 3], 1)] ∧
      ∀ q d, (q, d) ∈ pairsCount [([1, 2, 3], 2), ([2, 3], 1)] →
        d < cnt ∨ (d = cnt ∧ pairLexLe q pair)) := by
  constructor
  · exact top_pair_selection_tie_break.1 (FastMerger.init [([1, 2, 3], 2), ([2, 3], 1)])
      (by decide) (by decide)
  · exact top_pair_selection_tie_break.2 (pairsCount [([1, 2, 3], 2), ([2, 3], 1)])
      (by decide)

/-- C5: parallel pre-tokenization equals single-threaded
pre-tokenization.  For every matcher behaviour `tok` of the GPT-2
split regex, every list of segments such that no pretoken crosses a
segment boundary (the matches of the concatenation are exactly the
per-segment matches, concatenated in order), every worker count
`P ≥ 1` and batching factor `B ≥ 1`, and every arrival order of the
per-segment results (`imap_unordered` — any permutation of the
segments), `count_tokens_multi` produces a byte-sequence-keyed count
map equal, key for key, to `count_tokens_single` applied to the
concatenation of the segments. -/
theorem count_tokens_multi_matches_single
    (tok : List Nat → List (List Nat)) (segments arrival : List (List Nat))
    (nProc nChunks : Nat) (hP : 1 ≤ nProc) (hB : 1 ≤ nChunks)
    (harrival : List.Perm arrival segments)
    (hboundary : tok segments.join = (segments.map tok).join)
    (b : List Nat) :
    lookupK (countTokensMulti tok arrival nProc nChunks) b =
      lookupK (countTokensSingle tok segments.join) b := by
  have hkey : ∀ k, lookupK
      (arrival.foldl (fun total seg => counterUpdate total (countTokens tok seg)) []) k =
      lookupK (countTokens tok segments.join) k := by
    intro k
    have hsingle_none : lookupK (countTokens tok segments.join) k = none ↔
        ∀ seg ∈ segments, k ∉ tok seg := by
      unfold countTokens
      rw [foldl_bumpTok_none]
      rw [hboundary]
      simp only [lookupK, true_and]
      constructor
      · intro h seg hs hk
        exact h (List.mem_join.mpr ⟨tok seg, List.mem_map_of_mem _ hs, hk⟩)
      · intro h hk
        obtain ⟨l, hl, hkl⟩ := List.mem_join.mp hk
        obtain ⟨seg, hs, rfl⟩ := List.mem_map.mp hl
        exact h seg hs hkl
    have hmulti_none : lookupK
        (arrival.foldl (fun total seg => counterUpdate total (countTokens tok seg)) []) k =
          none ↔ ∀ seg ∈ segments, k ∉ tok seg := by
      rw [multiTotal_none]
      simp only [lookupK, true_and]
      constructor
      · intro h seg hs
        exact h seg (harrival.mem_iff.mpr hs)
      · intro h seg hs
        exact h seg (harrival.mem_iff.mp hs)
    have hvals : lookupD
        (arrival.foldl (fun total seg => counterUpdate total (countTokens tok seg)) []) k 0 =
        lookupD (countTokens tok segments.join) k 0 := by
      rw [multiTotal_lookupD]
      have hs : lookupD (countTokens tok segments.join) k 0 =
          (tok segments.join).count k := by
        unfold countTokens
        have := foldl_bumpTok_lookupD (tok segments.join) [] k
        simpa [lookupD, lookupK] using this
      rw [hs, hboundary, count_flatten_sum k (segments.map tok)]
      have hperm : List.Perm (arrival.map (fun seg => (tok seg).count k))
          (segments.map (fun seg => (tok seg).count k)) := harrival.map _
      have hsum := hperm.sum_eq
      simp only [lookupD, lookupK, Option.getD_none]
      rw [hsum]
      simp only [List.map_map, Nat.zero_add]
      rfl
    cases hA : lookupK
        (arrival.foldl (fun total seg => counterUpdate total (countTokens tok seg)) []) k with
    | none =>
        have := hsingle_none.mpr (hmulti_none.mp hA)
        exact this.symm
    | some v =>
        cases hS : lookupK (countTokens tok segments.join) k with
        | none =>
            have := hmulti_none.mpr (hsingle_none.mp hS)
            rw [hA] at this
            cases this
        | some w =>
            rw [lookupD, lookupD, hA, hS] at hvals
            simp at hvals
            rw [hvals]
  by_cases hex : ∃ k, utf8Str k = b
  · obtain ⟨k, rfl⟩ := hex
    unfold countTokensMulti countTokensSingle
    rw [lookupK_encodeKeys_enc, lookupK_encodeKeys_enc]
    exact hkey k
  · push_neg at hex
    unfold countTokensMulti countTokensSingle
    rw [lookupK_encodeKeys_notin _ b hex, lookupK_encodeKeys_notin _ b hex]

/-- Witness for C5: `tok` splitting a text into one-character matches
satisfies the boundary hypothesis for the segments `["hi", "x"]`
arriving in reversed order with two workers, and the multi and single
counters agree at the byte key `utf8("h") = [104]`. -/
theorem count_tokens_multi_matches_single_witness :
    1 ≤ 2 ∧ 1 ≤ 1 ∧
    List.Perm [[120], [104, 105]] [[104, 105], [120]] ∧
    (fun l : List Nat => l.map (fun c => [c])) ([[104, 105], [120]] : List (List Nat)).join =
      (([[104, 105], [120]] : List (List Nat)).map
        (fun l : List Nat => l.map (fun c => [c]))).join ∧
    lookupK (countTokensMulti (fun l : List Nat => l.map (fun c => [c]))
        [[120], [104, 105]] 2 1) [104] =
      lookupK (countTokensSingle (fun l : List Nat => l.map (fun c => [c]))
        ([[104, 105], [120]] : List (List Nat)).join) [104] :=
  ⟨by decide, by decide, by decide, by decide,
    count_tokens_multi_matches_single (fun l => l.map (fun c => [c]))
      [[104, 105], [120]] [[120], [104, 105]] 2 1 (by decide) (by decide)
      (by decide) (by decide) [104]⟩

/-- C8: round trip of persisted state.  For every tokenizer state
whose merges is a list of integer pairs and whose vocab maps integer
ids to byte strings (each byte < 256), calling
`load_state(prefix, folder)` on the store produced by
`save_state(prefix, folder)` with the same prefix and folder restores
merges and vocab equal to the saved state. -/
theorem save_load_round_trip (merges : List Pair) (vocab : Vocab)
    (pfx folder : List Nat) (store : FileStore)
    (hbytes : ∀ e ∈ vocab, ∀ b ∈ e.2, b < 256) :
    Tokenizer.loadState pfx folder
        (Tokenizer.saveState merges vocab pfx folder store).2 =
      .ok (merges, vocab) := by
  unfold Tokenizer.saveState Tokenizer.loadState
  simp only
  rw [lookupK_setK]
  rw [if_pos rfl]
  simp only [Nat.one_ne_zero, if_neg (by simp : ¬ (1 : Nat) ≠ 1)]
  rw [loadMerges_saveMerges merges]
  rw [loadVocab_saveVocab vocab hbytes]
  rfl

/-- Witness for C8: the state `merges = [(97,98)]`,
`vocab = {0: [0], 256: [97,98]}` (all bytes < 256) saved with prefix
`"tok"` into folder `"/tmp"` on an empty store loads back unchanged. -/
theorem save_load_round_trip_witness :
    (∀ e ∈ ([(0, [0]), (256, [97, 98])] : Vocab), ∀ b ∈ e.2, b < 256) ∧
    Tokenizer.loadState [116, 111, 107] [47, 116, 109, 112]
        (Tokenizer.saveState [(97, 98)] [(0, [0]), (256, [97, 98])]
          [116, 111, 107] [47, 116, 109, 112] []).2 =
      .ok ([(97, 98)], [(0, [0]), (256, [97, 98])]) :=
  ⟨by decide,
    save_load_round_trip [(97, 98)] [(0, [0]), (256, [97, 98])]
      [116, 111, 107] [47, 116, 109, 112] [] (by decide)⟩

/-- C6: counterexample to preservation.  On the corpus `{(97,98): 1}`
the call `_merge_sequence((97,98), 1, (97,98), 256)` completes, yet
afterwards `PairCount[(97,98)] = 1` while the reference sum
`Σ occurrences((97,98), PT) × PretokenCount[PT]` over the resulting
corpus `{(256,): 1}` is `0`: a pair with zero true count is still
present in both maps, so the invariant is not preserved by the merge
operation (the merged top pair's own state is deliberately left to
the caller, per the docstring of `_merge_sequence`). -/
theorem mergeSequence_leaves_top_pair_stale :
    (FastMerger.init [([97, 98], 1)]).mergeSequence [97, 98] 1 (97, 98) 256 =
      .ok { pretokenCount := [([256], 1)]
            pairCount := [((97, 98), 1)]
            pairHeap := [(1, (97, 98))]
            pairToPretokenSet := [((97, 98), [[97, 98]])] } ∧
    lookupK ([((97, 98), 1)] : PairCnt) (97, 98) = some 1 ∧
    pairTrueCount [([256], 1)] (97, 98) = 0 := by
  refine ⟨by rfl, by rfl, by rfl⟩

/-- C6 (amended): the invariant is established at initialization.  For
every pretoken counter with positive frequencies, `_build_pair_index`
produces maps such that every key `p` of `PairCount` has
`PairCount[p] > 0` equal to
`Σ over pretokens PT of occurrences(p, PT) × PretokenCount[PT]` and a
non-empty set in `PairToPretokens[p]`, and every pair whose reference
sum is zero is absent from both maps.  (Preservation by
`_merge_sequence` fails — see the counterexample
`mergeSequence_leaves_top_pair_stale` — as the merged top pair's own
state is left stale for the caller.) -/
theorem buildPairIndex_establishes_invariant (l : PretokenCnt)
    (hpos : ∀ e ∈ l, 0 < e.2) :
    (∀ p cnt, lookupK (buildPairIndex l).1 p = some cnt →
      cnt = pairTrueCount l p ∧ 0 < cnt ∧
      ∃ s, lookupK (buildPairIndex l).2 p = some s ∧ s ≠ []) ∧
    (∀ p, pairTrueCount l p = 0 →
      lookupK (buildPairIndex l).1 p = none ∧ lookupK (buildPairIndex l).2 p = none) := by
  have hlookupD : ∀ p, lookupD (buildPairIndex l).1 p 0 = pairTrueCount l p := by
    intro p
    have h := buildFold_lookupD l ([], []) p
    simpa [buildPairIndex, lookupD, lookupK] using h
  have habsent : ∀ p, (∀ e ∈ l, p ∉ adjPairs e.1) ↔ pairTrueCount l p = 0 := by
    intro p
    constructor
    · intro h
      unfold pairTrueCount
      apply List.sum_eq_zero
      intro x hx
      obtain ⟨e, he, rfl⟩ := List.mem_map.mp hx
      have : occurrences p e.1 = 0 := List.count_eq_zero.mpr (h e he)
      simp [this]
    · intro h e he hmem
      have hterm : occurrences p e.1 * e.2 ∈ l.map (fun e => occurrences p e.1 * e.2) :=
        List.mem_map_of_mem _ he
      have hle := List.single_le_sum (fun x _ => Nat.zero_le x) _ hterm
      have hocc : 0 < occurrences p e.1 := List.count_pos_iff.mpr hmem
      have hfreq := hpos e he
      have : 0 < occurrences p e.1 * e.2 := Nat.mul_pos hocc hfreq
      unfold pairTrueCount at h
      omega
  constructor
  · intro p cnt hcnt
    have hD : cnt = pairTrueCount l p := by
      have := hlookupD p
      rw [lookupD, hcnt] at this
      simpa using this
    have hne_none : lookupK (buildPairIndex l).1 p ≠ none := by simp [hcnt]
    have hex : ¬ ∀ e ∈ l, p ∉ adjPairs e.1 := by
      intro hall
      apply hne_none
      have h := (buildFold_pc_none l ([], []) p).mpr ⟨by simp [lookupK], hall⟩
      simpa [buildPairIndex] using h
    have hcnt_pos : 0 < cnt := by
      rw [hD]
      rcases Nat.eq_zero_or_pos (pairTrueCount l p) with h0 | h1
      · exact absurd ((habsent p).mpr h0) hex
      · exact h1
    refine ⟨hD, hcnt_pos, ?_⟩
    cases hs : lookupK (buildPairIndex l).2 p with
    | none =>
        exfalso
        have h := (buildFold_ptps_none l ([], []) p).mp (by simpa [buildPairIndex] using hs)
        exact hex h.2
    | some s =>
        refine ⟨s, rfl, ?_⟩
        have h0 : ∀ q t, lookupK (([], []) : PairCnt × PairToPretokens).2 q = some t →
            t ≠ [] := by
          intro q t ht
          simp [lookupK] at ht
        exact buildFold_ptps_ne_nil l ([], []) h0 p s (by simpa [buildPairIndex] using hs)
  · intro p h0
    have hall := (habsent p).mpr h0
    constructor
    · have h := (buildFold_pc_none l ([], []) p).mpr ⟨by simp [lookupK], hall⟩
      simpa [buildPairIndex] using h
    · have h := (buildFold_ptps_none l ([], []) p).mpr ⟨by simp [lookupK], hall⟩
      simpa [buildPairIndex] using h

/-- Witness for C6 (amended): on the corpus `{(1,2,3): 2, (2,3): 1}`
all frequencies are positive and the initialization invariant holds. -/
theorem buildPairIndex_establishes_invariant_witness :
    (∀ e ∈ ([([1, 2, 3], 2), ([2, 3], 1)] : PretokenCnt), 0 < e.2) ∧
    ((∀ p cnt, lookupK (buildPairIndex [([1, 2, 3], 2), ([2, 3], 1)]).1 p = some cnt →
      cnt = pairTrueCount [([1, 2, 3], 2), ([2, 3], 1)] p ∧ 0 < cnt ∧
      ∃ s, lookupK (buildPairIndex [([1, 2, 3], 2), ([2, 3], 1)]).2 p = some s ∧ s ≠ []) ∧
    (∀ p, pairTrueCount [([1, 2, 3], 2), ([2, 3], 1)] p = 0 →
      lookupK (buildPairIndex [([1, 2, 3], 2), ([2, 3], 1)]).1 p = none ∧
      lookupK (buildPairIndex [([1, 2, 3], 2), ([2, 3], 1)]).2 p = none)) :=
  ⟨by decide, buildPairIndex_establishes_invariant [([1, 2, 3], 2), ([2, 3], 1)] (by decide)⟩

/-- C10 (amended): the `use_fast_merge` parameter of `Tokenizer.train`
defaults to false: calling `train(text, vocab_size, special_tokens)`
without specifying `use_fast_merge` performs training with the basic
merge engine (`BasicMerger`). -/
theorem trainMergerChoice_default_basic :
    trainMergerChoice trainUseFastMergeDefault = MergerKind.basic := by
  decide

end Toksmith
